import Mathlib

/-!
Verification development for the json-asm library (C sources under src/).

The C code is shallowly embedded: machine bytes are `Nat` values < 256,
the mutable `parser_ctx` becomes an explicit state record threaded through
every function, and C functions returning `NULL`-or-value with an error
record become a result type carrying either a value or an error, together
with the final state (mirroring the by-pointer context of the C code).

Host floating-point routines (`strtod`, `snprintf %.17g`, casts of doubles)
are not given IEEE-754 semantics; a parsed double is kept symbolically as
the token it was parsed from (`strtod` is deterministic, so token equality
implies value equality).  No theorem below depends on the numeric value of
a double.
-/

namespace JsonAsm

/-- Symbolic model of a C `double`.  `zero` is the literal `0.0`,
`ofInt` is a cast from a signed integer, `ofTok` is the result of the host
`strtod` on the given token bytes (kept symbolic). -/
inductive DoubleM where
  | zero : DoubleM
  | ofInt : Int → DoubleM
  | ofTok : List Nat → DoubleM
deriving DecidableEq, Repr

/-- Error codes, mirroring `json_error` in include/json_asm.h. -/
inductive ECode where
  | okCode | memErr | synErr | depthErr | numErr | strErr | utf8Err | ioErr | typeErr
deriving DecidableEq, Repr

/-- Error record, mirroring `json_error_info` (the constant message string is
omitted; only code and position data are modelled). -/
structure PErr where
  code : ECode
  pos : Nat
  line : Nat
  col : Nat
deriving DecidableEq, Repr

/-- Parser context, mirroring `parser_ctx` in src/parse.c (the `doc`
pointer is not part of the state: node construction is modelled by
returning the constructed value).  `max_depth` and `depth` are passed as
separate arguments to the parsing functions. -/
structure St where
  input : List Nat
  pos : Nat
  line : Nat
  col : Nat
  flags : Nat
deriving DecidableEq, Repr

/-- Result of a C parse function: the value or the null sentinel plus error
record, together with the context state (the C context is passed by
pointer and is available to the caller in both cases). -/
inductive PRes (α : Type) where
  | ok : α → St → PRes α
  | err : PErr → St → PRes α
deriving DecidableEq, Repr

/-- The context state after a call, in both the success and failure case. -/
def PRes.st {α : Type} : PRes α → St
  | .ok _ s => s
  | .err _ s => s

mutual
/-- Value node, mirroring `struct json_val` (src/internal.h).  The 60-bit
payload of an `Int` node is stored as a `Nat` below `2^60`; a short string
stores its inline bytes (the 3-bit length field of the C layout always
equals the number of inline bytes, since both are written from the same
`len` variable in `parse_string`); a long string stores the length written
to the payload and, separately, the bytes written behind `str_ptr`. -/
inductive JVal where
  | vnull : JVal
  | vfalse : JVal
  | vtrue : JVal
  | vint : Nat → JVal
  | vfloat : DoubleM → JVal
  | vsstr : List Nat → JVal
  | vlstr : Nat → List Nat → JVal
  | varr : JItems → JVal
  | vobj : JEntries → JVal

/-- Sibling-linked children of an array node. -/
inductive JItems where
  | nil : JItems
  | cons : JVal → JItems → JItems

/-- Sibling-linked key nodes of an object; each key node is a string node
whose `child` slot holds the member value (src/parse.c `parse_object`). -/
inductive JEntries where
  | nil : JEntries
  | cons : JVal → JVal → JEntries → JEntries
end

mutual
def JVal.beq : JVal → JVal → Bool
  | .vnull, .vnull => true
  | .vfalse, .vfalse => true
  | .vtrue, .vtrue => true
  | .vint a, .vint b => a = b
  | .vfloat a, .vfloat b => a = b
  | .vsstr a, .vsstr b => a = b
  | .vlstr n a, .vlstr m b => n = m ∧ a = b
  | .varr a, .varr b => JItems.beq a b
  | .vobj a, .vobj b => JEntries.beq a b
  | _, _ => false

def JItems.beq : JItems → JItems → Bool
  | .nil, .nil => true
  | .cons a as, .cons b bs => JVal.beq a b && JItems.beq as bs
  | _, _ => false

def JEntries.beq : JEntries → JEntries → Bool
  | .nil, .nil => true
  | .cons k v r, .cons k' v' r' => JVal.beq k k' && JVal.beq v v' && JEntries.beq r r'
  | _, _ => false
end

mutual
theorem jval_beq_iff : ∀ a b : JVal, JVal.beq a b = true ↔ a = b
  | .vnull, b => by cases b <;> simp [JVal.beq]
  | .vfalse, b => by cases b <;> simp [JVal.beq]
  | .vtrue, b => by cases b <;> simp [JVal.beq]
  | .vint a, b => by cases b <;> simp [JVal.beq]
  | .vfloat a, b => by cases b <;> simp [JVal.beq]
  | .vsstr a, b => by cases b <;> simp [JVal.beq]
  | .vlstr n a, b => by cases b <;> simp [JVal.beq]
  | .varr a, b => by
      cases b <;> simp [JVal.beq]
      exact jitems_beq_iff a _
  | .vobj a, b => by
      cases b <;> simp [JVal.beq]
      exact jentries_beq_iff a _

theorem jitems_beq_iff : ∀ a b : JItems, JItems.beq a b = true ↔ a = b
  | .nil, b => by cases b <;> simp [JItems.beq]
  | .cons a as, b => by
      cases b <;> simp [JItems.beq]
      rw [jval_beq_iff, jitems_beq_iff]

theorem jentries_beq_iff : ∀ a b : JEntries, JEntries.beq a b = true ↔ a = b
  | .nil, b => by cases b <;> simp [JEntries.beq]
  | .cons k v r, b => by
      cases b <;> simp [JEntries.beq]
      rw [jval_beq_iff, jval_beq_iff, jentries_beq_iff, and_assoc]
end

instance : DecidableEq JVal := fun a b =>
  decidable_of_iff (JVal.beq a b = true) (jval_beq_iff a b)

instance : DecidableEq JItems := fun a b =>
  decidable_of_iff (JItems.beq a b = true) (jitems_beq_iff a b)

instance : DecidableEq JEntries := fun a b =>
  decidable_of_iff (JEntries.beq a b = true) (jentries_beq_iff a b)

/-! ### Context primitives (src/parse.c lines 84-117) -/

/-- Advance one byte on the current line (`ctx->pos++; ctx->col++`). -/
def adv1 (st : St) : St := { st with pos := st.pos + 1, col := st.col + 1 }

/-- Advance `n` bytes on the current line. -/
def advn (n : Nat) (st : St) : St := { st with pos := st.pos + n, col := st.col + n }

/-- The byte at the current position, if any. -/
def byteAt (st : St) (i : Nat) : Option Nat := st.input.get? i

/-- Loop body of `skip_ws`; the fuel is always at least the remaining
input length, so the loop never stops early. -/
def skip_ws_go : Nat → St → St
  | 0, st => st
  | f + 1, st =>
    match st.input.get? st.pos with
    | some c =>
      if c = 32 ∨ c = 9 ∨ c = 13 then skip_ws_go f (adv1 st)
      else if c = 10 then
        skip_ws_go f { st with pos := st.pos + 1, line := st.line + 1, col := 1 }
      else st
    | none => st

/-- `skip_ws` (src/parse.c line 85). -/
def skip_ws (st : St) : St := skip_ws_go (st.input.length - st.pos + 1) st

/-- `consume` (src/parse.c line 102): skip whitespace, then consume the
expected byte if present, returning whether it was consumed and the
updated context. -/
def consume (expected : Nat) (st : St) : Bool × St :=
  let s := skip_ws st
  if s.input.get? s.pos = some expected then (true, adv1 s) else (false, s)

/-- `peek` (src/parse.c line 113): skip whitespace and return the current
byte, or 0 at end of input.  (A genuine 0 byte in the input is returned
as 0 by the C code as well.) -/
def peekc (st : St) : Nat × St :=
  let s := skip_ws st
  match s.input.get? s.pos with
  | some c => (c, s)
  | none => (0, s)

/-- Build the error record as `set_error` does, from the current context. -/
def mkErr (c : ECode) (st : St) : PErr :=
  { code := c, pos := st.pos, line := st.line, col := st.col }

/-! ### Literal parsers (src/parse.c lines 119-172) -/

/-- `parse_null` (src/parse.c line 120). -/
def parse_null (st : St) : PRes JVal :=
  if byteAt st st.pos = some 110 ∧ byteAt st (st.pos + 1) = some 117 ∧
     byteAt st (st.pos + 2) = some 108 ∧ byteAt st (st.pos + 3) = some 108 then
    .ok .vnull (advn 4 st)
  else
    .err (mkErr .synErr st) st

/-- `parse_true` (src/parse.c line 138). -/
def parse_true (st : St) : PRes JVal :=
  if byteAt st st.pos = some 116 ∧ byteAt st (st.pos + 1) = some 114 ∧
     byteAt st (st.pos + 2) = some 117 ∧ byteAt st (st.pos + 3) = some 101 then
    .ok .vtrue (advn 4 st)
  else
    .err (mkErr .synErr st) st

/-- `parse_false` (src/parse.c line 156). -/
def parse_false (st : St) : PRes JVal :=
  if byteAt st st.pos = some 102 ∧ byteAt st (st.pos + 1) = some 97 ∧
     byteAt st (st.pos + 2) = some 108 ∧ byteAt st (st.pos + 3) = some 115 ∧
     byteAt st (st.pos + 4) = some 101 then
    .ok .vfalse (advn 5 st)
  else
    .err (mkErr .synErr st) st

/-! ### Number parsing (src/parse.c lines 174-267) -/

/-- ASCII digit test (`isdigit` on a byte). -/
def isDig (c : Nat) : Bool := 48 ≤ c ∧ c ≤ 57

/-- Whether the byte at index `i` is a digit (false at end of input). -/
def digAt (st : St) (i : Nat) : Bool :=
  match st.input.get? i with
  | some c => isDig c
  | none => false

/-- Length of the run of ASCII digits starting at index `i`
(the `while (isdigit...) i++` loops of `parse_number`). -/
def digRun (st : St) (i : Nat) : Nat :=
  go (st.input.length - i + 1) i
where
  go : Nat → Nat → Nat
    | 0, _ => 0
    | f + 1, j => if digAt st j then go f (j + 1) + 1 else 0

/-- Numeric value of a run of ASCII digits `ds`. -/
def digitsVal (ds : List Nat) : Nat := ds.foldl (fun a c => a * 10 + (c - 48)) 0

/-- Scan a number token as `parse_number` does, returning
`(tokenLength, isFloat)` or the error.  Mirrors the scanning phase of
src/parse.c lines 176-230. -/
def numScan (st : St) : PRes (Nat × Bool) :=
  let i0 : Nat := if byteAt st st.pos = some 45 then 1 else 0
  if ¬ digAt st (st.pos + i0) then .err (mkErr .numErr st) st
  else if byteAt st (st.pos + i0) = some 48 ∧ digAt st (st.pos + i0 + 1) then
    .err (mkErr .numErr st) st
  else
    let i1 := i0 + digRun st (st.pos + i0)
    let (i2, f2) :=
      if byteAt st (st.pos + i1) = some 46 then
        (i1 + 1 + digRun st (st.pos + i1 + 1), true)
      else (i1, false)
    if f2 ∧ digRun st (st.pos + i1 + 1) = 0 then .err (mkErr .numErr st) st
    else
      let hasExp := byteAt st (st.pos + i2) = some 101 ∨ byteAt st (st.pos + i2) = some 69
      if hasExp then
        let i3 := if byteAt st (st.pos + i2 + 1) = some 43 ∨
                     byteAt st (st.pos + i2 + 1) = some 45 then i2 + 2 else i2 + 1
        if digRun st (st.pos + i3) = 0 then .err (mkErr .numErr st) st
        else .ok (i3 + digRun st (st.pos + i3), true) st
      else .ok (i2, f2) st

/-- The signed integer value of the token `[sign]digits` starting at
`st.pos` of length `i` (what `strtoll` computes when it does not
overflow). -/
def tokIntVal (st : St) (i : Nat) : Int :=
  let tok := (st.input.drop st.pos).take i
  match tok with
  | 45 :: ds => -(digitsVal ds : Int)
  | ds => (digitsVal ds : Int)

/-- `parse_number` (src/parse.c line 175).  The float branch keeps the
`strtod` result symbolically as the token (out-of-range detection for
`strtod` is not modelled); the integer branch mirrors `strtoll` exactly:
overflow beyond the signed 64-bit range sets `ERANGE` and falls back to
the float path, otherwise the value is truncated to the low 60 bits by
`val_set_payload(val, (uint64_t)ival & 0x0FFFFFFFFFFFFFFF)`. -/
def parse_number (st : St) : PRes JVal :=
  match numScan st with
  | .err e s => .err e s
  | .ok (i, isFloat) _ =>
    let tok := (st.input.drop st.pos).take i
    if isFloat then
      .ok (.vfloat (.ofTok tok)) (advn i st)
    else
      let v := tokIntVal st i
      if v < -(2 ^ 63 : Int) ∨ (2 ^ 63 : Int) - 1 < v then
        .ok (.vfloat (.ofTok tok)) (advn i st)
      else
        .ok (.vint ((v % (2 ^ 60 : Int)).toNat)) (advn i st)

/-! ### String parsing (src/parse.c lines 269-480) -/

/-- `hex_digit` (src/parse.c line 270): value of a hex digit byte, or
none (the C function returns -1). -/
def hex_digit (c : Nat) : Option Nat :=
  if 48 ≤ c ∧ c ≤ 57 then some (c - 48)
  else if 97 ≤ c ∧ c ≤ 102 then some (c - 97 + 10)
  else if 65 ≤ c ∧ c ≤ 70 then some (c - 65 + 10)
  else none

/-- `parse_unicode_escape` (src/parse.c line 278): read 4 hex digits at
the current position; on success the context advances by 4 bytes. -/
def parse_unicode_escape (st : St) : Option (Nat × St) :=
  match byteAt st st.pos, byteAt st (st.pos + 1),
        byteAt st (st.pos + 2), byteAt st (st.pos + 3) with
  | some c0, some c1, some c2, some c3 =>
    match hex_digit c0, hex_digit c1, hex_digit c2, hex_digit c3 with
    | some d0, some d1, some d2, some d3 =>
      some (((d0 * 16 + d1) * 16 + d2) * 16 + d3, advn 4 st)
    | _, _, _, _ => none
  | _, _, _, _ => none

/-- `encode_utf8` (src/parse.c line 297): UTF-8 bytes of a codepoint
(empty for codepoints above 0x10FFFF, matching the C return value 0). -/
def encode_utf8 (cp : Nat) : List Nat :=
  if cp < 0x80 then [cp]
  else if cp < 0x800 then [0xC0 + cp / 64, 0x80 + cp % 64]
  else if cp < 0x10000 then [0xE0 + cp / 4096, 0x80 + cp / 64 % 64, 0x80 + cp % 64]
  else if cp ≤ 0x10FFFF then
    [0xF0 + cp / 262144, 0x80 + cp / 4096 % 64, 0x80 + cp / 64 % 64, 0x80 + cp % 64]
  else []

/-- One `\u` escape during the measuring pass of `parse_string`
(src/parse.c lines 355-387, entered with the context just after the `u`):
read 4 hex digits; a high surrogate must be followed by `\u` and a low
surrogate; returns the decoded codepoint.  Errors carry code `strErr`. -/
def measure_u_escape (st : St) : PRes Nat :=
  match parse_unicode_escape st with
  | none => .err (mkErr .strErr st) st
  | some (cp, st1) =>
    if 0xD800 ≤ cp ∧ cp ≤ 0xDBFF then
      if ¬ (st1.pos + 2 ≤ st1.input.length ∧ byteAt st1 st1.pos = some 92 ∧
            byteAt st1 (st1.pos + 1) = some 117) then
        .err (mkErr .strErr st1) st1
      else
        let st2 := advn 2 st1
        match parse_unicode_escape st2 with
        | none => .err (mkErr .strErr st2) st2
        | some (cp2, st3) =>
          if cp2 < 0xDC00 ∨ 0xDFFF < cp2 then .err (mkErr .strErr st3) st3
          else .ok (0x10000 + (cp - 0xD800) * 1024 + (cp2 - 0xDC00)) st3
    else .ok cp st1

/-- Measuring pass of `parse_string` (src/parse.c lines 329-400): walk to
the closing quote, counting decoded bytes and recording whether any
escape appeared.  Returns `(len, hasEscapes)` with the context at the
closing quote.  The fuel is always at least the remaining input length. -/
def measure_loop : Nat → Nat → Bool → St → PRes (Nat × Bool)
  | 0, _, _, st => .err (mkErr .strErr st) st
  | f + 1, len, esc, st =>
    match st.input.get? st.pos with
    | none => .err (mkErr .strErr st) st
    | some c =>
      if c = 34 then .ok (len, esc) st
      else if c = 92 then
        let st1 := adv1 st
        match st1.input.get? st1.pos with
        | none => .err (mkErr .strErr st1) st1
        | some e =>
          if e = 34 ∨ e = 92 ∨ e = 47 ∨ e = 98 ∨ e = 102 ∨ e = 110 ∨ e = 114 ∨ e = 116 then
            measure_loop f (len + 1) true (adv1 st1)
          else if e = 117 then
            match measure_u_escape (adv1 st1) with
            | .err er s => .err er s
            | .ok cp s => measure_loop f (len + (encode_utf8 cp).length) true s
          else .err (mkErr .strErr st1) st1
      else if c < 32 then .err (mkErr .strErr st) st
      else measure_loop f (len + 1) esc (adv1 st)

/-- One `\u` escape during the materializing pass (src/parse.c lines
451-466, position just after the `u`): pass 1 has already validated, so
hex digits are read unconditionally and a high surrogate is always
followed by a valid low surrogate.  Returns the codepoint and the
position after the escape. -/
def decode_u_escape (input : List Nat) (p : Nat) : Nat × Nat :=
  let h := fun i => (hex_digit ((input.get? i).getD 0)).getD 0
  let cp := ((h p * 16 + h (p + 1)) * 16 + h (p + 2)) * 16 + h (p + 3)
  if 0xD800 ≤ cp ∧ cp ≤ 0xDBFF then
    let q := p + 6
    let cp2 := ((h q * 16 + h (q + 1)) * 16 + h (q + 2)) * 16 + h (q + 3)
    (0x10000 + (cp - 0xD800) * 1024 + (cp2 - 0xDC00), q + 4)
  else (cp, p + 4)

/-- Materializing pass of `parse_string` for a string with escapes
(src/parse.c lines 437-472): re-scan from `p` up to `srcEnd` (the closing
quote) expanding escapes.  The fuel is always at least the remaining
length. -/
def decode_loop : Nat → List Nat → Nat → Nat → List Nat
  | 0, _, _, _ => []
  | f + 1, input, p, srcEnd =>
    if p < srcEnd then
      match input.get? p with
      | none => []
      | some c =>
        if c = 92 then
          match input.get? (p + 1) with
          | none => []
          | some e =>
            if e = 34 then 34 :: decode_loop f input (p + 2) srcEnd
            else if e = 92 then 92 :: decode_loop f input (p + 2) srcEnd
            else if e = 47 then 47 :: decode_loop f input (p + 2) srcEnd
            else if e = 98 then 8 :: decode_loop f input (p + 2) srcEnd
            else if e = 102 then 12 :: decode_loop f input (p + 2) srcEnd
            else if e = 110 then 10 :: decode_loop f input (p + 2) srcEnd
            else if e = 114 then 13 :: decode_loop f input (p + 2) srcEnd
            else if e = 116 then 9 :: decode_loop f input (p + 2) srcEnd
            else
              let (cp, p') := decode_u_escape input (p + 2)
              encode_utf8 cp ++ decode_loop f input p' srcEnd
        else c :: decode_loop f input (p + 1) srcEnd
    else []

/-- `JSON_SHORT_STR_MAX` (src/internal.h). -/
def JSON_SHORT_STR_MAX : Nat := 7

/-- `parse_string` (src/parse.c line 321): measure, then materialize
either inline (short, no escapes and at most 7 bytes), or into the string
region (raw copy without escapes, escape expansion otherwise). -/
def parse_string (st : St) : PRes JVal :=
  if ¬ (st.pos < st.input.length ∧ byteAt st st.pos = some 34) then
    .err (mkErr .synErr st) st
  else
    let st0 := adv1 st
    match measure_loop (st0.input.length - st0.pos + 1) 0 false st0 with
    | .err e s => .err e s
    | .ok (len, esc) st1 =>
      -- the loop left the context at the closing quote (it errors at end
      -- of input, which subsumes the `pos >= len` check after the loop)
      let st2 := adv1 st1
      let raw := (st0.input.drop st0.pos).take len
      if esc = false ∧ len ≤ JSON_SHORT_STR_MAX then
        .ok (.vsstr raw) st2
      else if esc = false then
        .ok (.vlstr len raw) st2
      else
        .ok (.vlstr len (decode_loop (st1.pos + 1 - st0.pos) st0.input st0.pos st1.pos)) st2

/-! ### Recursive descent (src/parse.c lines 482-683)

The C recursion is modelled with an explicit fuel argument; the top level
supplies fuel proportional to the input length, which is always enough
because every recursive call strictly advances the position.  `max_depth`
and `depth` (fields of `parser_ctx`) are passed as arguments `maxd` and
`d`; the C code increments `ctx->depth` on entering a container and
decrements it on leaving, which is exactly call-by-value passing of
`d + 1` to the element parsers. -/

/-- `JSON_PARSE_ALLOW_TRAILING` test on the flags word. -/
def allowTrailing (flags : Nat) : Bool := flags / 2 % 2 = 1

mutual
/-- `parse_value` (src/parse.c line 617). -/
def parse_value : Nat → Nat → Nat → St → PRes JVal
  | 0, _, _, st => .err (mkErr .synErr st) st
  | f + 1, maxd, d, st =>
    let (c, st) := peekc st
    if c = 110 then parse_null st
    else if c = 116 then parse_true st
    else if c = 102 then parse_false st
    else if c = 34 then parse_string st
    else if c = 91 then parse_array f maxd d st
    else if c = 123 then parse_object f maxd d st
    else if c = 45 ∨ (48 ≤ c ∧ c ≤ 57) then parse_number st
    else .err (mkErr .synErr st) st

termination_by structural f maxd d st => f

/-- `parse_array` (src/parse.c line 483). -/
def parse_array : Nat → Nat → Nat → St → PRes JVal
  | 0, _, _, st => .err (mkErr .synErr st) st
  | f + 1, maxd, d, st =>
    match consume 91 st with
    | (false, st) => .err (mkErr .synErr st) st
    | (true, st) =>
      if 0 < maxd ∧ maxd ≤ d then .err (mkErr .depthErr st) st
      else
        let (c, st) := peekc st
        if c = 93 then .ok (.varr .nil) (consume 93 st).2
        else
          match arr_loop f maxd (d + 1) st with
          | .err e s => .err e s
          | .ok items s => .ok (.varr items) s

termination_by structural f maxd d st => f

/-- Element loop of `parse_array` (src/parse.c lines 506-534). -/
def arr_loop : Nat → Nat → Nat → St → PRes JItems
  | 0, _, _, st => .err (mkErr .synErr st) st
  | f + 1, maxd, d, st =>
    match parse_value f maxd d st with
    | .err e s => .err e s
    | .ok elem st =>
      let (c, st) := peekc st
      if c = 93 then .ok (.cons elem .nil) (consume 93 st).2
      else
        match consume 44 st with
        | (false, st) => .err (mkErr .synErr st) st
        | (true, st) =>
          if allowTrailing st.flags then
            let (c2, st2) := peekc st
            if c2 = 93 then .ok (.cons elem .nil) (consume 93 st2).2
            else
              match arr_loop f maxd d st2 with
              | .err e s => .err e s
              | .ok items s => .ok (.cons elem items) s
          else
            match arr_loop f maxd d st with
            | .err e s => .err e s
            | .ok items s => .ok (.cons elem items) s

termination_by structural f maxd d st => f

/-- `parse_object` (src/parse.c line 541). -/
def parse_object : Nat → Nat → Nat → St → PRes JVal
  | 0, _, _, st => .err (mkErr .synErr st) st
  | f + 1, maxd, d, st =>
    match consume 123 st with
    | (false, st) => .err (mkErr .synErr st) st
    | (true, st) =>
      if 0 < maxd ∧ maxd ≤ d then .err (mkErr .depthErr st) st
      else
        let (c, st) := peekc st
        if c = 125 then .ok (.vobj .nil) (consume 125 st).2
        else
          match obj_loop f maxd (d + 1) st with
          | .err e s => .err e s
          | .ok entries s => .ok (.vobj entries) s

termination_by structural f maxd d st => f

/-- Member loop of `parse_object` (src/parse.c lines 564-610). -/
def obj_loop : Nat → Nat → Nat → St → PRes JEntries
  | 0, _, _, st => .err (mkErr .synErr st) st
  | f + 1, maxd, d, st =>
    let (c, st) := peekc st
    if ¬ c = 34 then .err (mkErr .synErr st) st
    else
      match parse_string st with
      | .err e s => .err e s
      | .ok key st =>
        match consume 58 st with
        | (false, st) => .err (mkErr .synErr st) st
        | (true, st) =>
          match parse_value f maxd d st with
          | .err e s => .err e s
          | .ok v st =>
            let (c2, st) := peekc st
            if c2 = 125 then .ok (.cons key v .nil) (consume 125 st).2
            else
              match consume 44 st with
              | (false, st) => .err (mkErr .synErr st) st
              | (true, st) =>
                if allowTrailing st.flags then
                  let (c3, st3) := peekc st
                  if c3 = 125 then .ok (.cons key v .nil) (consume 125 st3).2
                  else
                    match obj_loop f maxd d st3 with
                    | .err e s => .err e s
                    | .ok entries s => .ok (.cons key v entries) s
                else
                  match obj_loop f maxd d st with
                  | .err e s => .err e s
                  | .ok entries s => .ok (.cons key v entries) s
termination_by structural f maxd d st => f
end

/-- Fuel supplied by the top level: ample for any input, since every
level of the recursion strictly consumes input. -/
def fuelFor (input : List Nat) : Nat := 2 * input.length + 16

/-- `parse_json` (src/parse.c line 641): run `parse_value` from the start
of the input, then reject trailing non-whitespace content.  (Creation of
the document arena is modelled separately; see the arena model below.) -/
def parse_json (input : List Nat) (flags maxd : Nat) : PRes JVal :=
  let st : St := { input := input, pos := 0, line := 1, col := 1, flags := flags }
  match parse_value (fuelFor input) maxd 0 st with
  | .err e s => .err e s
  | .ok root st =>
    let st := skip_ws st
    if st.pos < st.input.length then .err (mkErr .synErr st) st
    else .ok root st

/-- `json_parse_opts` (src/json_asm.c line 94): empty input is rejected
before `parse_json` runs. -/
def json_parse_opts (input : List Nat) (flags maxd : Nat) : PRes JVal :=
  if input.length = 0 then
    .err { code := .synErr, pos := 0, line := 1, col := 1 }
      { input := input, pos := 0, line := 1, col := 1, flags := flags }
  else parse_json input flags maxd

/-! ### Type inspection and accessors (src/json_asm.c lines 177-401)

A `json_val *` argument is modelled as `Option JVal`: `none` is the NULL
reference. -/

/-- `val_get_type` (src/internal.h line 69): the 4-bit tag.  Tags follow
`json_type`: 0 null, 1 false, 3 true, 4 int, 5 float, 6 short string,
7 long string, 8 array, 9 object. -/
def val_get_type : JVal → Nat
  | .vnull => 0
  | .vfalse => 1
  | .vtrue => 3
  | .vint _ => 4
  | .vfloat _ => 5
  | .vsstr _ => 6
  | .vlstr _ _ => 7
  | .varr _ => 8
  | .vobj _ => 9

/-- `json_get_type` (src/json_asm.c line 181): NULL maps to `JSON_NULL`,
the two string tags collapse to `JSON_STRING` (6). -/
def json_get_type : Option JVal → Nat
  | none => 0
  | some v => let t := val_get_type v; if t = 6 ∨ t = 7 then 6 else t

/-- `json_get_bool` (src/json_asm.c line 245). -/
def json_get_bool : Option JVal → Bool
  | none => false
  | some v => val_get_type v = 3

/-- Symbolic model of the C cast `(int64_t)double`.  Only the `FLOAT`
branch of `json_get_int` uses it, and every double stored in a node is
kept symbolically (`ofTok`); no theorem below depends on this branch. -/
def doubleToI64 : DoubleM → Int
  | .zero => 0
  | .ofInt n => n
  | .ofTok _ => 0

/-- `json_get_int` (src/json_asm.c line 249): sign-extend the 60-bit
payload of an `Int` node; cast a `Float` node; 0 otherwise. -/
def json_get_int : Option JVal → Int
  | none => 0
  | some (.vint p) => if 2 ^ 59 ≤ p then (p : Int) - 2 ^ 60 else (p : Int)
  | some (.vfloat d) => doubleToI64 d
  | some _ => 0

/-- `json_get_uint` (src/json_asm.c line 267). -/
def json_get_uint (v : Option JVal) : Nat :=
  let i := json_get_int v
  if i < 0 then 0 else i.toNat

/-- `json_get_num` (src/json_asm.c line 272). -/
def json_get_num : Option JVal → DoubleM
  | none => .zero
  | some (.vfloat d) => d
  | some (.vint p) => .ofInt (json_get_int (some (.vint p)))
  | some _ => .zero

/-- `json_get_str` (src/json_asm.c line 284): the inline bytes of a short
string, the arena bytes of a long string, NULL otherwise. -/
def json_get_str : Option JVal → Option (List Nat)
  | some (.vsstr b) => some b
  | some (.vlstr _ b) => some b
  | _ => none

/-- `json_get_str_len` (src/json_asm.c line 296): the 3-bit inline length
of a short string (always the number of inline bytes, both being written
from the same variable), or the payload length of a long string. -/
def json_get_str_len : Option JVal → Nat
  | some (.vsstr b) => b.length
  | some (.vlstr n _) => n
  | _ => 0

/-- Key lookup walk of `json_obj_getn` (src/json_asm.c lines 320-332)
over the entry list of an object.  `memcmp(child_key, key, key_len)` is
modelled as equality of the first `key_len` bytes. -/
def obj_getn_entries (key : List Nat) (keyLen : Nat) : JEntries → Option JVal
  | .nil => none
  | .cons k v rest =>
    if json_get_str_len (some k) = keyLen then
      match json_get_str (some k) with
      | some kb =>
        if kb.take keyLen = key.take keyLen then some v
        else obj_getn_entries key keyLen rest
      | none => obj_getn_entries key keyLen rest
    else obj_getn_entries key keyLen rest

/-- `json_obj_getn` (src/json_asm.c line 317). -/
def json_obj_getn (obj : Option JVal) (key : List Nat) (keyLen : Nat) : Option JVal :=
  match obj with
  | some (.vobj entries) => obj_getn_entries key keyLen entries
  | _ => none

/-- `json_obj_get` (src/json_asm.c line 312): lookup with `strlen(key)`. -/
def json_obj_get (obj : Option JVal) (key : List Nat) : Option JVal :=
  json_obj_getn obj key key.length

def JEntries.size : JEntries → Nat
  | .nil => 0
  | .cons _ _ rest => 1 + rest.size

/-- `json_obj_size` (src/json_asm.c line 339). -/
def json_obj_size : Option JVal → Nat
  | some (.vobj entries) => entries.size
  | _ => 0

def JItems.size : JItems → Nat
  | .nil => 0
  | .cons _ rest => 1 + rest.size

/-- Index walk of `json_arr_get` (src/json_asm.c lines 374-380). -/
def arr_get_items : Nat → JItems → Option JVal
  | _, .nil => none
  | 0, .cons v _ => some v
  | i + 1, .cons _ rest => arr_get_items i rest

/-- `json_arr_get` (src/json_asm.c line 371). -/
def json_arr_get (arr : Option JVal) (index : Nat) : Option JVal :=
  match arr with
  | some (.varr items) => arr_get_items index items
  | _ => none

/-- `json_arr_size` (src/json_asm.c line 383). -/
def json_arr_size : Option JVal → Nat
  | some (.varr items) => items.size
  | _ => 0

/-! ### Structural equality (src/json_asm.c line 436)

`json_equals` first compares the two pointers (`if (a == b) return true`).
When the two values come from two distinct documents — as in the
round-trip property, which compares the roots of two separate parses —
every pair of nodes reached by the recursion consists of one node from
each document, so the pointer test is always false and the function is a
pure function of the two trees.  `json_equals_x` is that projection; the
aliasing-aware model used for reflexivity is given further below. -/

mutual
/-- Cross-document projection of `json_equals` (both arguments non-NULL
nodes of distinct documents).  The `FLOAT` branch compares the symbolic
doubles; distinct tokens denoting the same double compare unequal here,
which no theorem below relies on. -/
def json_equals_x : JVal → JVal → Bool
  | a, b =>
    let ta := json_get_type (some a)
    let tb := json_get_type (some b)
    if ¬ ta = tb then false
    else if ta = 0 ∨ ta = 1 ∨ ta = 3 then true
    else if ta = 4 then json_get_int (some a) = json_get_int (some b)
    else if ta = 5 then json_get_num (some a) = json_get_num (some b)
    else if ta = 6 then
      if json_get_str_len (some a) = json_get_str_len (some b) then
        match json_get_str (some a), json_get_str (some b) with
        | some x, some y =>
          x.take (json_get_str_len (some a)) = y.take (json_get_str_len (some a))
        | _, _ => false
      else false
    else
      match a, b with
      | .varr xs, .varr ys => eq_items xs ys
      | .vobj xs, .vobj ys => (JEntries.size xs = JEntries.size ys) && eq_entries xs ys
      | _, _ => false

/-- Pairwise element walk of the `JSON_ARRAY` branch. -/
def eq_items : JItems → JItems → Bool
  | .nil, .nil => true
  | .cons a as, .cons b bs => json_equals_x a b && eq_items as bs
  | _, _ => false

/-- The `json_obj_foreach` walk of the `JSON_OBJECT` branch: each key of
the left object is looked up in the right object with `json_obj_getn`. -/
def eq_entries : JEntries → JEntries → Bool
  | .nil, _ => true
  | .cons k va rest, bs =>
    match obj_getn_entries ((json_get_str (some k)).getD [])
            (json_get_str_len (some k)) bs with
    | none => false
    | some vb => json_equals_x va vb && eq_entries rest bs
end

/-- `json_equals` restricted to cross-document references (see above):
NULL handling per src/json_asm.c lines 437-438 with the pointer test
always false. -/
def json_equals_xdoc : Option JVal → Option JVal → Bool
  | none, _ => false
  | _, none => false
  | some a, some b => json_equals_x a b

/-! ### Serialization (src/stringify.c) -/

/-- Lowercase hex digit (the `hex_digits` table of src/stringify.c). -/
def hexDigL (n : Nat) : Nat := if n < 10 then 48 + n else 97 + (n - 10)

/-- Per-byte escaping of `stringify_string` (src/stringify.c lines 68-110). -/
def esc_char (c : Nat) : List Nat :=
  if c = 34 then [92, 34]
  else if c = 92 then [92, 92]
  else if c = 8 then [92, 98]
  else if c = 12 then [92, 102]
  else if c = 10 then [92, 110]
  else if c = 13 then [92, 114]
  else if c = 9 then [92, 116]
  else if c < 32 then [92, 117, 48, 48, hexDigL (c / 16), hexDigL (c % 16)]
  else [c]

/-- `stringify_string` (src/stringify.c line 65). -/
def stringify_string (bs : List Nat) : List Nat :=
  34 :: (bs.flatMap esc_char) ++ [34]

/-- Decimal digits of a natural number (host `snprintf "%lld"` for the
non-negative part). -/
def dec_digits (n : Nat) : List Nat := (Nat.toDigits 10 n).map Char.toNat

/-- `snprintf "%lld"` of a signed 64-bit value. -/
def fmt_ll (i : Int) : List Nat :=
  if i < 0 then 45 :: dec_digits (-i).toNat else dec_digits i.toNat

/-- Host `snprintf "%.17g"` of a double, with NaN and infinities emitted
as `null` (src/stringify.c lines 126-134).  The rendering of a symbolic
double is kept symbolic (identity on the token); no theorem below
depends on this branch. -/
def fmt_double : DoubleM → List Nat
  | .zero => [48]
  | .ofInt n => fmt_ll n
  | .ofTok t => t

/-- `stringify_number` (src/stringify.c line 117). -/
def stringify_number (v : JVal) : List Nat :=
  if val_get_type v = 4 then fmt_ll (json_get_int (some v))
  else
    match v with
    | .vfloat d => fmt_double d
    | _ => []

/-- Stringify options (`json_stringify_options`); `opts == NULL` is the
default record with `pretty = false`. -/
structure StrOpts where
  pretty : Bool
  indent : Nat
  newline : List Nat
deriving DecidableEq, Repr

def defaultStrOpts : StrOpts := { pretty := false, indent := 0, newline := [10] }

/-- `stringify_indent` (src/stringify.c line 146). -/
def stringify_indent (opts : StrOpts) (depth : Nat) : List Nat :=
  if ¬ opts.pretty then []
  else opts.newline ++ List.replicate (depth * opts.indent) 32

mutual
/-- `stringify_value_impl` (src/stringify.c line 234). -/
def stringify_value_impl : JVal → StrOpts → Nat → List Nat
  | .vnull, _, _ => [110, 117, 108, 108]
  | .vfalse, _, _ => [102, 97, 108, 115, 101]
  | .vtrue, _, _ => [116, 114, 117, 101]
  | .vint p, _, _ => stringify_number (.vint p)
  | .vfloat d, _, _ => stringify_number (.vfloat d)
  | .vsstr b, _, _ =>
    stringify_string (((json_get_str (some (.vsstr b))).getD []).take
      (json_get_str_len (some (.vsstr b))))
  | .vlstr n b, _, _ =>
    stringify_string (((json_get_str (some (.vlstr n b))).getD []).take
      (json_get_str_len (some (.vlstr n b))))
  | .varr items, opts, depth =>
    91 :: stringify_items items opts depth true ++
      (if ¬ (items = .nil) ∧ opts.pretty then stringify_indent opts depth else []) ++ [93]
  | .vobj entries, opts, depth =>
    123 :: stringify_entries entries opts depth true ++
      (if ¬ (entries = .nil) ∧ opts.pretty then stringify_indent opts depth else []) ++ [125]

/-- Element loop of `stringify_array` (src/stringify.c lines 165-180). -/
def stringify_items : JItems → StrOpts → Nat → Bool → List Nat
  | .nil, _, _, _ => []
  | .cons v rest, opts, depth, first =>
    (if ¬ first then [44] else []) ++
    (if opts.pretty then stringify_indent opts (depth + 1) else []) ++
    stringify_value_impl v opts (depth + 1) ++
    stringify_items rest opts depth false

/-- Member loop of `stringify_object` (src/stringify.c lines 195-223). -/
def stringify_entries : JEntries → StrOpts → Nat → Bool → List Nat
  | .nil, _, _, _ => []
  | .cons k v rest, opts, depth, first =>
    (if ¬ first then [44] else []) ++
    (if opts.pretty then stringify_indent opts (depth + 1) else []) ++
    stringify_string (((json_get_str (some k)).getD []).take (json_get_str_len (some k))) ++
    [58] ++
    (if opts.pretty then [32] else []) ++
    stringify_value_impl v opts (depth + 1) ++
    stringify_entries rest opts depth false
end

/-- `json_stringify` via `stringify_value` (src/stringify.c line 276 and
src/json_asm.c line 407): NULL in, NULL out; buffer growth cannot fail in
the model. -/
def json_stringify : Option JVal → Option (List Nat)
  | none => none
  | some v => some (stringify_value_impl v defaultStrOpts 0)

/-! ### Kernel family `find_structural` and `parse_int`
(scalar reference: src/parse.c lines 699-730; NEON variants:
src/arm64/simd_arm64.c lines 77-165).  Input slices are byte lists with
explicit length; a kernel returns its count result together with the
64-bit mask (written through the out-parameter in C). -/

/-- Structural byte test: one of `{ } [ ] : , "`. -/
def is_structural (c : Nat) : Bool :=
  c = 123 ∨ c = 125 ∨ c = 91 ∨ c = 93 ∨ c = 58 ∨ c = 44 ∨ c = 34

/-- Bitmask with bit `i` set for each structural byte among the first
`count` bytes. -/
def structMask (str : List Nat) (count : Nat) : Nat :=
  (List.range count).foldl
    (fun m i => if is_structural ((str.get? i).getD 0) then m + 2 ^ i else m) 0

/-- `find_structural_scalar` (src/parse.c line 699): processes up to 64
leading bytes; returns `(count, mask)`. -/
def find_structural_scalar (str : List Nat) : Nat × Nat :=
  let count := min str.length 64
  (count, structMask str count)

/-- `find_structural_neon` (src/arm64/simd_arm64.c line 77): processes up
to 16 leading bytes (one NEON vector); the vectorized match result `result`
computed by the intrinsics is discarded by the C code, which rebuilds
`final_mask` with the scalar loop over `count = min(len, 16)` bytes. -/
def find_structural_neon (str : List Nat) : Nat × Nat :=
  if str.length = 0 then (0, 0)
  else
    let count := min str.length 16
    (count, structMask str count)

/-- Wrap an unbounded integer into the signed 64-bit range (two's
complement).  The C accumulation `result = result * 10 + digit` is signed
64-bit arithmetic; on overflow the C program has undefined behaviour, and
this model chooses the usual wraparound semantics. -/
def i64wrap (x : Int) : Int := (x + 2 ^ 63) % 2 ^ 64 - 2 ^ 63

/-- Length of the leading digit run of `str` starting at index `i`. -/
def digit_run_list (str : List Nat) (i : Nat) : Nat :=
  ((str.drop i).takeWhile (fun c => decide (48 ≤ c ∧ c ≤ 57))).length

/-- Signed 64-bit accumulation of a digit list. -/
def digits_acc (ds : List Nat) : Int :=
  ds.foldl (fun a d => i64wrap (a * 10 + ((d : Int) - 48))) 0

/-- `parse_int_scalar` (src/parse.c line 713): optional minus, then all
following digits; returns `(value, consumed)`. -/
def parse_int_scalar (str : List Nat) : Int × Nat :=
  let neg := str.get? 0 = some 45
  let i0 : Nat := if neg then 1 else 0
  let run := digit_run_list str i0
  let v := digits_acc ((str.drop i0).take run)
  (if neg then i64wrap (-v) else v, i0 + run)

/-- `parse_int_neon` (src/arm64/simd_arm64.c line 128): same scan, but the
digit count is capped at 19 (`if (digit_count >= 19) break`), and a run of
zero digits reports zero consumed bytes. -/
def parse_int_neon (str : List Nat) : Int × Nat :=
  if str.length = 0 then (0, 0)
  else
    let neg := str.get? 0 = some 45
    let i0 : Nat := if neg then 1 else 0
    let run := min (digit_run_list str i0) 19
    if run = 0 then (0, 0)
    else
      let v := digits_acc ((str.drop i0).take run)
      (if neg then i64wrap (-v) else v, i0 + run)

/-! ### Arena model (src/arena.c, and the sizing in `parse_json`)

Addresses are modelled as pairs `(generation, offset)`: the host
allocator returns, for each call, a block disjoint from every live block,
so the buffer obtained by `arena_grow` is distinct from the old one while
the nodes are copied; the old block is then freed.  A node allocated at
offset `o` while generation `g` was live is referred to by the returned
pointer `(g, o)`; after a grow its bytes live at `(g', o)` with `g' > g`,
and `(g, o)` points into freed memory. -/

/-- `align_up` (src/arena.c line 13), for the power-of-two alignments
used by the code. -/
def align_up (s a : Nat) : Nat := (s + a - 1) / a * a

/-- Arena sizing on entry to `parse_json` (src/parse.c lines 643-647)
followed by the alignment of `arena_create` (src/arena.c line 44). -/
def initial_arena_size (len : Nat) : Nat :=
  let est := len / 4 + 1
  let sz := est * 24
  let sz := if sz < 64 * 1024 then 64 * 1024 else sz
  align_up sz 64

/-- Node-arena state: the generation of the live block, its capacity and
the bytes used. -/
structure ArenaSt where
  gen : Nat
  size : Nat
  used : Nat
deriving DecidableEq, Repr

/-- The doubling loop of `arena_grow` (src/arena.c lines 87-90). -/
def growTarget : Nat → Nat → Nat → Nat
  | 0, cur, _ => cur
  | f + 1, cur, needed => if cur < needed then growTarget f (cur * 2) needed else cur

/-- `arena_grow` (src/arena.c line 86): allocate a fresh (new-generation)
block of the doubled size, copy the used bytes, free the old block.  The
offsets of the copied nodes are unchanged; the generation is not. -/
def arena_grow (a : ArenaSt) (needed : Nat) : ArenaSt :=
  let ns := growTarget 64 (a.size * 2) (a.used + needed)
  { gen := a.gen + 1, size := align_up ns 64, used := a.used }

/-- `arena_alloc_val` (src/arena.c line 118): grow if the 24-byte node
does not fit, then return the address of the node. -/
def arena_alloc_val (a : ArenaSt) : (Nat × Nat) × ArenaSt :=
  let a := if a.size < a.used + 24 then arena_grow a 24 else a
  ((a.gen, a.used), { a with used := a.used + 24 })

/-- `arena_create` (src/arena.c line 40) as called by `parse_json` for an
input of `len` bytes. -/
def arena_create_model (len : Nat) : ArenaSt :=
  { gen := 0, size := initial_arena_size len, used := 0 }

/-- State after `k` node allocations. -/
def arena_run : Nat → ArenaSt → ArenaSt
  | 0, a => a
  | k + 1, a => arena_run k (arena_alloc_val a).2

/-- The address returned by the `i`-th allocation (0-based). -/
def alloc_addr (a : ArenaSt) (i : Nat) : Nat × Nat :=
  (arena_alloc_val (arena_run i a)).1

/-! ### Node counting and container depth -/

mutual
/-- Number of `arena_alloc_val` calls needed for a parsed tree: one per
node, keys included (on the success path of the parser every allocated
node is linked into the tree and vice versa). -/
def countNodes : JVal → Nat
  | .varr its => 1 + countItems its
  | .vobj ens => 1 + countEntries ens
  | _ => 1

def countItems : JItems → Nat
  | .nil => 0
  | .cons v r => countNodes v + countItems r

def countEntries : JEntries → Nat
  | .nil => 0
  | .cons k v r => countNodes k + countNodes v + countEntries r
end

mutual
/-- Container nesting depth of a value: 0 for leaves, one more than the
deepest child for arrays and objects. -/
def cdepth : JVal → Nat
  | .varr its => 1 + cdepthItems its
  | .vobj ens => 1 + cdepthEntries ens
  | _ => 0

def cdepthItems : JItems → Nat
  | .nil => 0
  | .cons v r => max (cdepth v) (cdepthItems r)

def cdepthEntries : JEntries → Nat
  | .nil => 0
  | .cons _ v r => max (cdepth v) (cdepthEntries r)
end

/-! ### Reference-level model of `json_equals` (src/json_asm.c line 436)

`json_equals` begins with the pointer test `if (a == b) return true`, so
its result is a function of the references, not only of the trees they
denote.  Here value references are indices into a heap of 24-byte nodes
(`struct json_val`), and the function is modelled on references,
including the pointer test and the recursive comparisons of child
references.  (`json_equals_x` above is the projection of this function to
pairs of references from two disjoint documents, where the pointer test
is always false.) -/

/-- A `struct json_val` with the unions flattened: `tag` and `payload`
split word 0, `next` and `child` are the reference-valued readings of
words 1 and 2, `sbytes` are the string bytes reachable through the inline
storage or `str_ptr`, and `fval` is the `float_val` reading of word 2.
Only the fields meaningful for the node's tag are ever read, mirroring
the `val_get_*` accessors. -/
structure CNode where
  tag : Nat
  payload : Nat
  sbytes : List Nat
  fval : DoubleM
  next : Option Nat
  child : Option Nat
deriving DecidableEq, Repr

/-- `json_get_type` on a reference (NULL or dangling references give
tag 0; the C code would fault on a dangling reference, which no
well-formed document produces). -/
def href_type (h : List CNode) : Option Nat → Nat
  | none => 0
  | some i =>
    match h.get? i with
    | none => 0
    | some n => if n.tag = 6 ∨ n.tag = 7 then 6 else n.tag

/-- `json_get_int` on a reference. -/
def href_int (h : List CNode) : Option Nat → Int
  | none => 0
  | some i =>
    match h.get? i with
    | none => 0
    | some n =>
      if n.tag = 4 then
        (if 2 ^ 59 ≤ n.payload then (n.payload : Int) - 2 ^ 60 else (n.payload : Int))
      else if n.tag = 5 then doubleToI64 n.fval
      else 0

/-- `json_get_num` on a reference. -/
def href_num (h : List CNode) (r : Option Nat) : DoubleM :=
  match r with
  | none => .zero
  | some i =>
    match h.get? i with
    | none => .zero
    | some n =>
      if n.tag = 5 then n.fval
      else if n.tag = 4 then .ofInt (href_int h r)
      else .zero

/-- `json_get_str` on a reference. -/
def href_str (h : List CNode) : Option Nat → Option (List Nat)
  | none => none
  | some i =>
    match h.get? i with
    | none => none
    | some n => if n.tag = 6 ∨ n.tag = 7 then some n.sbytes else none

/-- `json_get_str_len` on a reference (short strings store the byte count
in the 3-bit length field, long strings in the payload). -/
def href_str_len (h : List CNode) : Option Nat → Nat
  | none => 0
  | some i =>
    match h.get? i with
    | none => 0
    | some n =>
      if n.tag = 6 then n.sbytes.length
      else if n.tag = 7 then n.payload
      else 0

/-- The `next` field of a referenced node (`json_arr_next`/`json_obj_next`). -/
def href_next (h : List CNode) : Option Nat → Option Nat
  | none => none
  | some i =>
    match h.get? i with
    | none => none
    | some n => n.next

/-- The `child` field of a referenced node. -/
def href_child (h : List CNode) : Option Nat → Option Nat
  | none => none
  | some i =>
    match h.get? i with
    | none => none
    | some n => n.child

/-- Sibling-walk count (`json_obj_size`/`json_arr_size` body). -/
def hwalk_size (h : List CNode) : Nat → Option Nat → Nat
  | 0, _ => 0
  | _, none => 0
  | f + 1, some i => 1 + hwalk_size h f (href_next h (some i))

/-- `json_obj_getn` walk on references (src/json_asm.c lines 320-332). -/
def hobj_getn_walk (h : List CNode) : Nat → Option Nat → List Nat → Nat → Option Nat
  | 0, _, _, _ => none
  | _, none, _, _ => none
  | f + 1, some i, key, keyLen =>
    if href_str_len h (some i) = keyLen then
      match href_str h (some i) with
      | some kb =>
        if kb.take keyLen = key.take keyLen then href_child h (some i)
        else hobj_getn_walk h f (href_next h (some i)) key keyLen
      | none => hobj_getn_walk h f (href_next h (some i)) key keyLen
    else hobj_getn_walk h f (href_next h (some i)) key keyLen

mutual
/-- `json_equals` on references, pointer test included. -/
def json_equals_ref (h : List CNode) : Nat → Option Nat → Option Nat → Bool
  | fuel, a, b =>
    if a = b then true
    else
      match a, b with
      | none, _ => false
      | _, none => false
      | some ia, some ib =>
        let ta := href_type h (some ia)
        let tb := href_type h (some ib)
        if ¬ ta = tb then false
        else if ta = 0 ∨ ta = 1 ∨ ta = 3 then true
        else if ta = 4 then href_int h (some ia) = href_int h (some ib)
        else if ta = 5 then href_num h (some ia) = href_num h (some ib)
        else if ta = 6 then
          if href_str_len h (some ia) = href_str_len h (some ib) then
            match href_str h (some ia), href_str h (some ib) with
            | some x, some y =>
              x.take (href_str_len h (some ia)) = y.take (href_str_len h (some ia))
            | _, _ => false
          else false
        else if ta = 8 then
          match fuel with
          | 0 => false
          | f + 1 => harr_walk h f (href_child h (some ia)) (href_child h (some ib))
        else if ta = 9 then
          match fuel with
          | 0 => false
          | f + 1 =>
            if hwalk_size h f (href_child h (some ia)) = hwalk_size h f (href_child h (some ib)) then
              hobj_foreach h f (href_child h (some ia)) (some ib)
            else false
        else false

termination_by structural fuel a b => fuel

def harr_walk (h : List CNode) : Nat → Option Nat → Option Nat → Bool
  | _, none, none => true
  | 0, _, _ => false
  | f + 1, some x, some y =>
    json_equals_ref h f (some x) (some y) &&
      harr_walk h f (href_next h (some x)) (href_next h (some y))
  | _, _, _ => false

termination_by structural fuel a b => fuel

def hobj_foreach (h : List CNode) : Nat → Option Nat → Option Nat → Bool
  | _, none, _ => true
  | 0, _, _ => false
  | f + 1, some k, b =>
    match hobj_getn_walk h (f + 1) (href_child h b) ((href_str h (some k)).getD [])
            (href_str_len h (some k)) with
    | none => false
    | some vb =>
      json_equals_ref h f (href_child h (some k)) (some vb) &&
        hobj_foreach h f (href_next h (some k)) b
termination_by structural fuel a b => fuel
end

/-! ## Theorems -/

/-- The parsed value of a result, if it succeeded. -/
def PRes.val? {α : Type} : PRes α → Option α
  | .ok v _ => some v
  | .err _ _ => none

/-- The bytes of the input `576460752303423488`, which is the decimal
numeral of `2^59` — the smallest positive integer outside the signed
60-bit range `[-2^59, 2^59 - 1]`. -/
def c1_input : List Nat := [53, 55, 54, 52, 54, 48, 55, 53, 50, 51, 48, 51, 52, 50, 51, 52, 56, 56]

/-- C1: the claim states that an integer literal outside `[-2^59, 2^59-1]`
is represented as `Float`, never as a truncated `Int`.  The code violates
this: the literal `576460752303423488` (= `2^59`, as the third conjunct
verifies) passes the `strtoll` range check (it fits in 64 bits), is
stored as an `Int` node — not a `Float` — with its payload silently
truncated to 60 bits, and `json_get_int` sign-extends that payload to
`-2^59`, i.e. the document reports the wrong value. -/
theorem c1_int_truncated_not_float :
    PRes.val? (json_parse_opts c1_input 0 0) = some (JVal.vint (2 ^ 59)) ∧
    json_get_int (PRes.val? (json_parse_opts c1_input 0 0)) = -(2 ^ 59 : Int) ∧
    digitsVal c1_input = 2 ^ 59 := by decide

/-- A 17-byte slice of structural bytes (17 copies of `{`). -/
def c3_braces17 : List Nat := List.replicate 17 123

/-- A run of twenty ASCII digits. -/
def c3_digits20 : List Nat := List.replicate 20 49

/-- C3: the claim states that every enabled SIMD kernel variant returns
bit-identical results to the scalar reference on every input slice.  The
code violates this twice on ARM64: `find_structural_neon` processes only
`min(len, 16)` bytes where the scalar reference processes `min(len, 64)`,
so on a 17-byte slice of `{` bytes the scalar returns count 17 with mask
`0x1FFFF` while NEON returns count 16 with mask `0xFFFF`; and
`parse_int_neon` caps the digit run at 19 digits, so on a run of twenty
digits it reports 19 consumed bytes where the scalar reports 20. -/
theorem c3_simd_not_bit_identical :
    find_structural_scalar c3_braces17 = (17, 2 ^ 17 - 1) ∧
    find_structural_neon c3_braces17 = (16, 2 ^ 16 - 1) ∧
    ¬ find_structural_neon c3_braces17 = find_structural_scalar c3_braces17 ∧
    (parse_int_scalar c3_digits20).2 = 20 ∧
    (parse_int_neon c3_digits20).2 = 19 := by decide

/-- The bytes of the duplicate-key object text `{"a":1,"a":2}`. -/
def c4_input : List Nat := [123, 34, 97, 34, 58, 49, 44, 34, 97, 34, 58, 50, 125]

/-- The tree built by parsing `c4_input`. -/
def c4_tree : JVal :=
  .vobj (.cons (.vsstr [97]) (.vint 1) (.cons (.vsstr [97]) (.vint 2) .nil))

/-- C4: the claim states `parse(stringify(parse(I)))` is structurally
equal to `parse(I)` for every parseable input under the equality computed
by `json_equals`.  The code violates this at `I = {"a":1,"a":2}` (a
parseable input): stringify reproduces the input text exactly and the
re-parse yields the identical tree, yet `json_equals` on the two roots
returns false, because `json_obj_foreach` resolves every key of the left
object through `json_obj_getn`, which always returns the value of the
*first* entry with that key — so the second `"a"` entry (value 2) is
compared against the first one (value 1).  (The roots come from two
distinct documents, so the pointer-equality shortcut of `json_equals`
does not fire; `json_equals_xdoc` is exactly that case.) -/
theorem c4_roundtrip_not_equal :
    PRes.val? (json_parse_opts c4_input 0 0) = some c4_tree ∧
    json_stringify (some c4_tree) = some c4_input ∧
    json_equals_xdoc (some c4_tree) (some c4_tree) = false := by decide

/-- Whether a key node matches a lookup key, exactly the comparison made
by one step of the `json_obj_getn` walk. -/
def entry_key_matches (k : JVal) (key : List Nat) (klen : Nat) : Bool :=
  if json_get_str_len (some k) = klen then
    match json_get_str (some k) with
    | some kb => kb.take klen = key.take klen
    | none => false
  else false

/-- Whether some entry of an object matches a lookup key. -/
def entries_has_key (key : List Nat) (klen : Nat) : JEntries → Bool
  | .nil => false
  | .cons k _ rest => entry_key_matches k key klen || entries_has_key key klen rest

theorem obj_getn_entries_eq_none (key : List Nat) (klen : Nat) :
    ∀ es, entries_has_key key klen es = false → obj_getn_entries key klen es = none
  | .nil, _ => rfl
  | .cons k v rest, h => by
    simp only [entries_has_key, entry_key_matches, Bool.or_eq_false_iff] at h
    simp only [obj_getn_entries]
    split
    · rename_i hlen
      rcases hk : json_get_str (some k) with _ | kb
      · simp only [hk]
        exact obj_getn_entries_eq_none key klen rest h.2
      · simp only [hk]
        split
        · rename_i heq
          rw [if_pos hlen, hk] at h
          simp [heq] at h
        · exact obj_getn_entries_eq_none key klen rest h.2
    · exact obj_getn_entries_eq_none key klen rest h.2

theorem arr_get_items_oob : ∀ (its : JItems) (i : Nat),
    JItems.size its ≤ i → arr_get_items i its = none
  | .nil, i, _ => by cases i <;> rfl
  | .cons v rest, i, h => by
    cases i with
    | zero => simp [JItems.size] at h
    | succ j =>
      simp only [JItems.size] at h
      exact arr_get_items_oob rest j (by omega)

/-- C8: every public accessor is total and returns its documented default
on a NULL reference or a type mismatch: `json_get_bool` is false unless
the value is `true`; `json_get_int`, `json_get_uint` and `json_get_num`
return 0 for non-numbers; `json_get_str` returns NULL and
`json_get_str_len` 0 for non-strings; `json_obj_getn` returns NULL for
non-objects and for missing keys and `json_obj_size` 0 for non-objects;
`json_arr_get` returns NULL for non-arrays and out-of-bounds indices and
`json_arr_size` 0 for non-arrays. -/
theorem c8_accessors_never_fail :
    ∀ (v : Option JVal) (key : List Nat) (klen i : Nat),
      (¬ json_get_type v = 3 → json_get_bool v = false) ∧
      ((¬ json_get_type v = 4 ∧ ¬ json_get_type v = 5) →
        json_get_int v = 0 ∧ json_get_uint v = 0 ∧ json_get_num v = DoubleM.zero) ∧
      (¬ json_get_type v = 6 → json_get_str v = none ∧ json_get_str_len v = 0) ∧
      (¬ json_get_type v = 9 → json_obj_getn v key klen = none ∧ json_obj_size v = 0) ∧
      (∀ es, v = some (JVal.vobj es) → entries_has_key key klen es = false →
        json_obj_getn v key klen = none) ∧
      (¬ json_get_type v = 8 → json_arr_get v i = none ∧ json_arr_size v = 0) ∧
      (∀ its, v = some (JVal.varr its) → JItems.size its ≤ i →
        json_arr_get v i = none) := by
  intro v key klen i
  refine ⟨?_, ?_, ?_, ?_, ?_, ?_, ?_⟩
  · rcases v with _ | x
    · intro _; rfl
    · cases x <;> simp [json_get_type, val_get_type, json_get_bool]
  · rcases v with _ | x
    · intro _; refine ⟨rfl, rfl, rfl⟩
    · cases x <;>
        simp [json_get_type, val_get_type, json_get_int, json_get_uint, json_get_num]
  · rcases v with _ | x
    · intro _; exact ⟨rfl, rfl⟩
    · cases x <;> simp [json_get_type, val_get_type, json_get_str, json_get_str_len]
  · rcases v with _ | x
    · intro _; exact ⟨rfl, rfl⟩
    · cases x <;> simp [json_get_type, val_get_type, json_obj_getn, json_obj_size]
  · intro es hv h
    subst hv
    simp only [json_obj_getn]
    exact obj_getn_entries_eq_none key klen es h
  · rcases v with _ | x
    · intro _; exact ⟨rfl, rfl⟩
    · cases x <;> simp [json_get_type, val_get_type, json_arr_get, json_arr_size]
  · intro its hv h
    subst hv
    simp only [json_arr_get]
    exact arr_get_items_oob its i h

/-- Witness for C8 at concrete inputs: an `Int` node is mismatched for the
boolean, string, object and array accessors, and a one-element array is
out of bounds at index 1. -/
theorem c8_accessors_never_fail_witness :
    json_get_bool (some (JVal.vint 5)) = false ∧
    json_get_str (some (JVal.vint 5)) = none ∧
    json_obj_getn (some (JVal.vint 5)) [97] 1 = none ∧
    json_arr_get (some (JVal.vint 5)) 0 = none ∧
    json_obj_getn (some (JVal.vobj (.cons (.vsstr [98]) .vnull .nil))) [97] 1 = none ∧
    json_arr_get (some (JVal.varr (.cons .vnull .nil))) 1 = none := by
  have h1 := c8_accessors_never_fail (some (JVal.vint 5)) [97] 1 0
  have h2 := c8_accessors_never_fail (some (JVal.vobj (.cons (.vsstr [98]) .vnull .nil))) [97] 1 0
  have h3 := c8_accessors_never_fail (some (JVal.varr (.cons .vnull .nil))) [97] 1 1
  exact ⟨h1.1 (by decide), (h1.2.2.1 (by decide)).1, (h1.2.2.2.1 (by decide)).1,
         (h1.2.2.2.2.2.1 (by decide)).1,
         h2.2.2.2.2.1 _ rfl (by decide),
         h3.2.2.2.2.2.2 _ rfl (by decide)⟩

/-- C9: `json_equals` is reflexive for every reference, including NULL —
the leading pointer-equality test `if (a == b) return true` fires — and a
NULL reference compared with any non-NULL reference yields false in
either order. -/
theorem c9_equals_reflexive_null :
    ∀ (h : List CNode) (fuel : Nat) (v w : Option Nat),
      json_equals_ref h fuel v v = true ∧
      (¬ w = none →
        json_equals_ref h fuel none w = false ∧ json_equals_ref h fuel w none = false) := by
  intro h fuel v w
  constructor
  · cases fuel <;> simp [json_equals_ref]
  · intro hw
    rcases w with _ | iw
    · exact absurd rfl hw
    · constructor
      · cases fuel <;> simp [json_equals_ref]
      · cases fuel <;> simp [json_equals_ref]

/-- Witness for C9 at a concrete heap and references. -/
theorem c9_equals_reflexive_null_witness :
    json_equals_ref [] 5 (some 3) (some 3) = true ∧
    json_equals_ref [] 5 none none = true ∧
    json_equals_ref [] 5 none (some 3) = false ∧
    json_equals_ref [] 5 (some 3) none = false := by
  have h1 := c9_equals_reflexive_null [] 5 (some 3) (some 3)
  have h2 := c9_equals_reflexive_null [] 5 none (some 3)
  exact ⟨h1.1, h2.1, (h1.2 (by decide)).1, (h1.2 (by decide)).2⟩

/-! ### C10: the parser never writes to the input buffer.

Every context transition of the embedded parser carries the `input` field
unchanged, mirroring the C code, which declares `const char *input` and
contains no store to it (the `JSON_PARSE_INSITU` flag is declared but
never read by the parser).  The theorems below prove the field is
preserved through every parsing function, on success and on failure. -/

@[simp] theorem adv1_input (st : St) : (adv1 st).input = st.input := rfl

@[simp] theorem advn_input (n : Nat) (st : St) : (advn n st).input = st.input := rfl

@[simp] theorem skip_ws_go_input : ∀ (f : Nat) (st : St), (skip_ws_go f st).input = st.input
  | 0, st => rfl
  | f + 1, st => by
    simp only [skip_ws_go]
    split
    · split
      · rw [skip_ws_go_input f]; rfl
      · split
        · rw [skip_ws_go_input f]
        · rfl
    · rfl

@[simp] theorem skip_ws_input (st : St) : (skip_ws st).input = st.input :=
  skip_ws_go_input _ st

@[simp] theorem consume_input (c : Nat) (st : St) : ((consume c st).2).input = st.input := by
  simp only [consume]
  split <;> simp

@[simp] theorem peekc_input (st : St) : ((peekc st).2).input = st.input := by
  simp only [peekc]
  split <;> simp

@[simp] theorem parse_null_input (st : St) : (parse_null st).st.input = st.input := by
  simp only [parse_null]
  split <;> rfl

@[simp] theorem parse_true_input (st : St) : (parse_true st).st.input = st.input := by
  simp only [parse_true]
  split <;> rfl

@[simp] theorem parse_false_input (st : St) : (parse_false st).st.input = st.input := by
  simp only [parse_false]
  split <;> rfl

@[simp] theorem numScan_st (st : St) : (numScan st).st = st := by
  simp only [numScan]
  repeat' split
  all_goals rfl

@[simp] theorem parse_number_input (st : St) : (parse_number st).st.input = st.input := by
  simp only [parse_number]
  rcases hn : numScan st with ⟨⟨i, isF⟩, s⟩ | ⟨e, s⟩
  · split
    · rename_i e' s' heq
      cases heq
    · rename_i i' isF' a' heq
      cases heq
      cases isF
      · repeat' split
        all_goals rfl
      · rfl
  · have hs : s = st := by have := numScan_st st; rw [hn] at this; exact this
    subst hs
    split
    · rename_i e' s' heq
      cases heq
      rfl
    · rename_i i' isF' a' heq
      cases heq

theorem parse_unicode_escape_input (st : St) (cp : Nat) (st' : St)
    (h : parse_unicode_escape st = some (cp, st')) : st'.input = st.input := by
  simp only [parse_unicode_escape] at h
  repeat' split at h
  all_goals simp_all
  all_goals rw [← h.2]; rfl

@[simp] theorem measure_u_escape_input (st : St) : (measure_u_escape st).st.input = st.input := by
  simp only [measure_u_escape]
  split
  · rfl
  · rename_i cp st1 heq1
    have e1 : st1.input = st.input := parse_unicode_escape_input st cp st1 heq1
    split
    · split
      · exact e1
      · split
        · simp [PRes.st, e1]
        · rename_i cp2 st3 heq2
          have e3 : st3.input = st.input := by
            rw [parse_unicode_escape_input (advn 2 st1) cp2 st3 heq2, advn_input, e1]
          split <;> exact e3
    · exact e1

@[simp] theorem measure_loop_input :
    ∀ (f len : Nat) (esc : Bool) (st : St), (measure_loop f len esc st).st.input = st.input
  | 0, _, _, st => rfl
  | f + 1, len, esc, st => by
    simp only [measure_loop]
    split
    · rfl
    · split
      · rfl
      · split
        · split
          · rfl
          · split
            · rw [measure_loop_input f]; rfl
            · split
              · rcases hu : measure_u_escape (adv1 (adv1 st)) with ⟨cp, s⟩ | ⟨e, s⟩
                · have : s.input = st.input := by
                    have := measure_u_escape_input (adv1 (adv1 st))
                    rw [hu] at this
                    exact this
                  rw [measure_loop_input f]
                  exact this
                · have := measure_u_escape_input (adv1 (adv1 st))
                  rw [hu] at this
                  exact this
              · rfl
        · split
          · rfl
          · rw [measure_loop_input f]; rfl

@[simp] theorem parse_string_input (st : St) : (parse_string st).st.input = st.input := by
  simp only [parse_string]
  split
  · rfl
  · split
    · rename_i e s heq
      have hs : s.input = st.input := by
        have := measure_loop_input ((adv1 st).input.length - (adv1 st).pos + 1) 0 false (adv1 st)
        rw [heq] at this
        simpa using this
      exact hs
    · rename_i len esc s heq
      have hs : s.input = st.input := by
        have := measure_loop_input ((adv1 st).input.length - (adv1 st).pos + 1) 0 false (adv1 st)
        rw [heq] at this
        simpa using this
      repeat' split
      all_goals simp [PRes.st, hs]

mutual
theorem parse_value_input : ∀ (f maxd d : Nat) (st : St),
    (parse_value f maxd d st).st.input = st.input
  | 0, _, _, st => rfl
  | f + 1, maxd, d, st => by
    simp only [parse_value]
    rcases hp : peekc st with ⟨c, st1⟩
    have h1 : st1.input = st.input := by
      have := peekc_input st; rw [hp] at this; exact this
    try dsimp only
    split_ifs
    · rw [parse_null_input, h1]
    · rw [parse_true_input, h1]
    · rw [parse_false_input, h1]
    · rw [parse_string_input, h1]
    · rw [parse_array_input f maxd d st1, h1]
    · rw [parse_object_input f maxd d st1, h1]
    · rw [parse_number_input, h1]
    · exact h1
termination_by structural f maxd d st => f

theorem parse_array_input : ∀ (f maxd d : Nat) (st : St),
    (parse_array f maxd d st).st.input = st.input
  | 0, _, _, st => rfl
  | f + 1, maxd, d, st => by
    simp only [parse_array]
    rcases hc : consume 91 st with ⟨b, st1⟩
    have h1 : st1.input = st.input := by
      have := consume_input 91 st; rw [hc] at this; exact this
    cases b
    · exact h1
    · dsimp only
      split
      · exact h1
      · rcases hp : peekc st1 with ⟨c, st2⟩
        have h2 : st2.input = st.input := by
          have := peekc_input st1; rw [hp] at this; rw [this, h1]
        try dsimp only
        split
        · simp [PRes.st, h2]
        · have hl := arr_loop_input f maxd (d + 1) st2
          split
          · rename_i items s heq
            rw [heq] at hl
            simp only [PRes.st] at hl ⊢
            rw [hl, h2]
          · rename_i e s heq
            rw [heq] at hl
            simp only [PRes.st] at hl ⊢
            rw [hl, h2]
termination_by structural f maxd d st => f

theorem arr_loop_input : ∀ (f maxd d : Nat) (st : St),
    (arr_loop f maxd d st).st.input = st.input
  | 0, _, _, st => rfl
  | f + 1, maxd, d, st => by
    simp only [arr_loop]
    have hv := parse_value_input f maxd d st
    split
    · rename_i e st1 heq
      rw [heq] at hv
      simp only [PRes.st] at hv ⊢
      exact hv
    · rename_i elem st1 heq
      rw [heq] at hv
      simp only [PRes.st] at hv
      rcases hp : peekc st1 with ⟨c, st2⟩
      have h2 : st2.input = st.input := by
        have := peekc_input st1; rw [hp] at this; rw [this, hv]
      try dsimp only
      split
      · simp [PRes.st, h2]
      · rcases hc : consume 44 st2 with ⟨b, st3⟩
        have h3 : st3.input = st.input := by
          have := consume_input 44 st2; rw [hc] at this; rw [this, h2]
        cases b
        · exact h3
        · dsimp only
          split
          · rcases hp2 : peekc st3 with ⟨c2, st4⟩
            have h4 : st4.input = st.input := by
              have := peekc_input st3; rw [hp2] at this; rw [this, h3]
            try dsimp only
            split
            · simp [PRes.st, h4]
            · have hl := arr_loop_input f maxd d st4
              split
              · rename_i items s heq2
                rw [heq2] at hl
                simp only [PRes.st] at hl ⊢
                rw [hl, h4]
              · rename_i e s heq2
                rw [heq2] at hl
                simp only [PRes.st] at hl ⊢
                rw [hl, h4]
          · have hl := arr_loop_input f maxd d st3
            split
            · rename_i items s heq2
              rw [heq2] at hl
              simp only [PRes.st] at hl ⊢
              rw [hl, h3]
            · rename_i e s heq2
              rw [heq2] at hl
              simp only [PRes.st] at hl ⊢
              rw [hl, h3]
termination_by structural f maxd d st => f

theorem parse_object_input : ∀ (f maxd d : Nat) (st : St),
    (parse_object f maxd d st).st.input = st.input
  | 0, _, _, st => rfl
  | f + 1, maxd, d, st => by
    simp only [parse_object]
    rcases hc : consume 123 st with ⟨b, st1⟩
    have h1 : st1.input = st.input := by
      have := consume_input 123 st; rw [hc] at this; exact this
    cases b
    · exact h1
    · dsimp only
      split
      · exact h1
      · rcases hp : peekc st1 with ⟨c, st2⟩
        have h2 : st2.input = st.input := by
          have := peekc_input st1; rw [hp] at this; rw [this, h1]
        try dsimp only
        split
        · simp [PRes.st, h2]
        · have hl := obj_loop_input f maxd (d + 1) st2
          split
          · rename_i entries s heq
            rw [heq] at hl
            simp only [PRes.st] at hl ⊢
            rw [hl, h2]
          · rename_i e s heq
            rw [heq] at hl
            simp only [PRes.st] at hl ⊢
            rw [hl, h2]
termination_by structural f maxd d st => f

theorem obj_loop_input : ∀ (f maxd d : Nat) (st : St),
    (obj_loop f maxd d st).st.input = st.input
  | 0, _, _, st => rfl
  | f + 1, maxd, d, st => by
    simp only [obj_loop]
    rcases hp : peekc st with ⟨c, st1⟩
    have h1 : st1.input = st.input := by
      have := peekc_input st; rw [hp] at this; exact this
    try dsimp only
    split
    · exact h1
    · have hk := parse_string_input st1
      split
      · rename_i e st2 heq
        rw [heq] at hk
        simp only [PRes.st] at hk ⊢
        rw [hk, h1]
      · rename_i key st2 heq
        rw [heq] at hk
        simp only [PRes.st] at hk
        have h2 : st2.input = st.input := by rw [hk, h1]
        rcases hc : consume 58 st2 with ⟨b, st3⟩
        have h3 : st3.input = st.input := by
          have := consume_input 58 st2; rw [hc] at this; rw [this, h2]
        cases b
        · exact h3
        · dsimp only
          have hval := parse_value_input f maxd d st3
          split
          · rename_i e st4 heq2
            rw [heq2] at hval
            simp only [PRes.st] at hval ⊢
            rw [hval, h3]
          · rename_i v st4 heq2
            rw [heq2] at hval
            simp only [PRes.st] at hval
            have h4 : st4.input = st.input := by rw [hval, h3]
            rcases hp2 : peekc st4 with ⟨c2, st5⟩
            have h5 : st5.input = st.input := by
              have := peekc_input st4; rw [hp2] at this; rw [this, h4]
            try dsimp only
            split
            · simp [PRes.st, h5]
            · rcases hc2 : consume 44 st5 with ⟨b2, st6⟩
              have h6 : st6.input = st.input := by
                have := consume_input 44 st5; rw [hc2] at this; rw [this, h5]
              cases b2
              · exact h6
              · dsimp only
                split
                · rcases hp3 : peekc st6 with ⟨c3, st7⟩
                  have h7 : st7.input = st.input := by
                    have := peekc_input st6; rw [hp3] at this; rw [this, h6]
                  try dsimp only
                  split
                  · simp [PRes.st, h7]
                  · have hl := obj_loop_input f maxd d st7
                    split
                    · rename_i entries s heq3
                      rw [heq3] at hl
                      simp only [PRes.st] at hl ⊢
                      rw [hl, h7]
                    · rename_i e s heq3
                      rw [heq3] at hl
                      simp only [PRes.st] at hl ⊢
                      rw [hl, h7]
                · have hl := obj_loop_input f maxd d st6
                  split
                  · rename_i entries s heq3
                    rw [heq3] at hl
                    simp only [PRes.st] at hl ⊢
                    rw [hl, h6]
                  · rename_i e s heq3
                    rw [heq3] at hl
                    simp only [PRes.st] at hl ⊢
                    rw [hl, h6]
termination_by structural f maxd d st => f
end

/-- C10: parsing never mutates the input buffer: for every input byte
sequence and every parse options value (any flags word, including one
with `JSON_PARSE_INSITU` set, and any `max_depth`), the input carried by
the parser context is the same after `json_parse_opts` returns as it was
before, whether the parse succeeds or fails. -/
theorem c10_input_never_mutated :
    ∀ (input : List Nat) (flags maxd : Nat),
      (json_parse_opts input flags maxd).st.input = input := by
  intro input flags maxd
  simp only [json_parse_opts]
  split
  · rfl
  · simp only [parse_json]
    rcases hv : parse_value (fuelFor input) maxd 0
        { input := input, pos := 0, line := 1, col := 1, flags := flags }
      with ⟨root, s⟩ | ⟨e, s⟩
    · have hs : s.input = input := by
        have := parse_value_input (fuelFor input) maxd 0
          { input := input, pos := 0, line := 1, col := 1, flags := flags }
        rw [hv] at this
        exact this
      simp only
      split
      · simp [PRes.st, hs]
      · simp [PRes.st, hs]
    · have := parse_value_input (fuelFor input) maxd 0
        { input := input, pos := 0, line := 1, col := 1, flags := flags }
      rw [hv] at this
      exact this

/-! ### C7: surrogate-pair decoding -/

/-- The error code of a failed result. -/
def PRes.code? {α : Type} : PRes α → Option ECode
  | .ok _ _ => none
  | .err e _ => some e.code

/-- The bytes of the JSON text `"😀"`. -/
def c7_input : List Nat := [34, 92, 117, 68, 56, 51, 68, 92, 117, 68, 69, 48, 48, 34]

/-- C7: a `\uXXXX` escape whose codepoint lies in the high-surrogate range
`U+D800..U+DBFF` must be immediately followed by `\u` and four hex digits
decoding to the low-surrogate range `U+DC00..U+DFFF`; otherwise the parse
fails with error code `String`.  A well-formed pair decodes to
`U+10000 + ((hi - D800) << 10) + (lo - DC00)`, whose UTF-8 encoding is
4 bytes long; in particular `"😀"` parses to a string whose
stored bytes are the 4-byte UTF-8 encoding of U+1F600. -/
theorem c7_surrogate_pairs :
    (∀ (st : St) (cp : Nat) (st1 : St),
      parse_unicode_escape st = some (cp, st1) → 0xD800 ≤ cp → cp ≤ 0xDBFF →
      ((¬ (st1.pos + 2 ≤ st1.input.length ∧ byteAt st1 st1.pos = some 92 ∧
            byteAt st1 (st1.pos + 1) = some 117) →
         PRes.code? (measure_u_escape st) = some ECode.strErr) ∧
       ((st1.pos + 2 ≤ st1.input.length ∧ byteAt st1 st1.pos = some 92 ∧
            byteAt st1 (st1.pos + 1) = some 117) →
         (parse_unicode_escape (advn 2 st1) = none →
           PRes.code? (measure_u_escape st) = some ECode.strErr) ∧
         (∀ (lo : Nat) (st3 : St), parse_unicode_escape (advn 2 st1) = some (lo, st3) →
           ((lo < 0xDC00 ∨ 0xDFFF < lo) →
             PRes.code? (measure_u_escape st) = some ECode.strErr) ∧
           (0xDC00 ≤ lo → lo ≤ 0xDFFF →
             measure_u_escape st =
               .ok (0x10000 + (cp - 0xD800) * 1024 + (lo - 0xDC00)) st3 ∧
             (encode_utf8 (0x10000 + (cp - 0xD800) * 1024 + (lo - 0xDC00))).length = 4))))) ∧
    PRes.val? (json_parse_opts c7_input 0 0) = some (JVal.vlstr 4 [240, 159, 152, 128]) := by
  constructor
  · intro st cp st1 hpe h1 h2
    have hhi : 0xD800 ≤ cp ∧ cp ≤ 0xDBFF := ⟨h1, h2⟩
    constructor
    · intro hnf
      simp only [measure_u_escape, hpe, if_pos hhi, if_pos hnf]
      rfl
    · intro hf
      have hnn : ¬ ¬ (st1.pos + 2 ≤ st1.input.length ∧ byteAt st1 st1.pos = some 92 ∧
          byteAt st1 (st1.pos + 1) = some 117) := not_not_intro hf
      constructor
      · intro hn
        simp only [measure_u_escape, hpe, if_pos hhi, if_neg hnn, hn]
        rfl
      · intro lo st3 hpe2
        constructor
        · intro hrange
          have hr : lo < 0xDC00 ∨ 0xDFFF < lo := hrange
          simp only [measure_u_escape, hpe, if_pos hhi, if_neg hnn, hpe2, if_pos hr]
          rfl
        · intro hl1 hl2
          have hr : ¬ (lo < 0xDC00 ∨ 0xDFFF < lo) := by omega
          constructor
          · simp only [measure_u_escape, hpe, if_pos hhi, if_neg hnn, hpe2, if_neg hr]
          · have hcp1 : ¬ (0x10000 + (cp - 0xD800) * 1024 + (lo - 0xDC00) < 0x80) := by omega
            have hcp2 : ¬ (0x10000 + (cp - 0xD800) * 1024 + (lo - 0xDC00) < 0x800) := by omega
            have hcp3 : ¬ (0x10000 + (cp - 0xD800) * 1024 + (lo - 0xDC00) < 0x10000) := by
              omega
            have hcp4 : 0x10000 + (cp - 0xD800) * 1024 + (lo - 0xDC00) ≤ 0x10FFFF := by omega
            simp only [encode_utf8, if_neg hcp1, if_neg hcp2, if_neg hcp3, if_pos hcp4]
            rfl
  · decide

/-- Witness for C7 at the concrete escape `😀` (the measuring
context starts just after the first `u`). -/
theorem c7_surrogate_pairs_witness :
    measure_u_escape
        { input := [68, 56, 51, 68, 92, 117, 68, 69, 48, 48], pos := 0, line := 1, col := 1,
          flags := 0 } =
      .ok 128512
        { input := [68, 56, 51, 68, 92, 117, 68, 69, 48, 48], pos := 10, line := 1, col := 11,
          flags := 0 } ∧
    (encode_utf8 128512).length = 4 := by
  have h := (c7_surrogate_pairs.1
    { input := [68, 56, 51, 68, 92, 117, 68, 69, 48, 48], pos := 0, line := 1, col := 1,
      flags := 0 }
    0xD83D
    { input := [68, 56, 51, 68, 92, 117, 68, 69, 48, 48], pos := 4, line := 1, col := 5,
      flags := 0 }
    (by decide) (by decide) (by decide)).2 (by decide)
  have h2 := (h.2 0xDE00
    { input := [68, 56, 51, 68, 92, 117, 68, 69, 48, 48], pos := 10, line := 1, col := 11,
      flags := 0 }
    (by decide)).2 (by decide) (by decide)
  exact h2

/-! ### C6: the ShortString boundary and accessor coherence.

The measuring pass and the materializing pass of `parse_string` walk the
same region of the input in lockstep; the lemmas below make that precise:
the number of bytes pass 2 writes equals the length pass 1 measured. -/

/-- Reading four hex digits by `(hex_digit …).getD 0`, as pass 2 does. -/
def hexAt (input : List Nat) (p : Nat) : Nat :=
  let h := fun i => (hex_digit ((input.get? i).getD 0)).getD 0
  ((h p * 16 + h (p + 1)) * 16 + h (p + 2)) * 16 + h (p + 3)

theorem parse_unicode_escape_spec (st : St) (cp : Nat) (st1 : St)
    (h : parse_unicode_escape st = some (cp, st1)) :
    st1 = advn 4 st ∧ cp = hexAt st.input st.pos := by
  simp only [parse_unicode_escape] at h
  repeat' split at h
  any_goals exact Option.noConfusion h
  simp only [Option.some.injEq, Prod.mk.injEq] at h
  obtain ⟨hcp, hst⟩ := h
  refine ⟨hst.symm, ?_⟩
  rw [← hcp]
  simp_all [hexAt, byteAt]

theorem decode_u_escape_eq (input : List Nat) (p : Nat) :
    decode_u_escape input p =
      if 0xD800 ≤ hexAt input p ∧ hexAt input p ≤ 0xDBFF then
        (0x10000 + (hexAt input p - 0xD800) * 1024 + (hexAt input (p + 6) - 0xDC00), p + 6 + 4)
      else (hexAt input p, p + 4) := by
  simp only [decode_u_escape, hexAt]

theorem measure_u_escape_decode (st : St) (cp : Nat) (s' : St)
    (h : measure_u_escape st = .ok cp s') :
    decode_u_escape st.input st.pos = (cp, s'.pos) ∧
    st.pos + 4 ≤ s'.pos ∧ s'.pos ≤ st.pos + 10 ∧ s'.input = st.input := by
  simp only [measure_u_escape] at h
  rcases h1 : parse_unicode_escape st with _ | ⟨cp1, st1⟩ <;> simp only [h1] at h
  · cases h
  · obtain ⟨hst1, hcp1⟩ := parse_unicode_escape_spec st cp1 st1 h1
    split at h
    · rename_i hhi
      split at h
      · cases h
      · rcases h2 : parse_unicode_escape (advn 2 st1) with _ | ⟨cp2, st3⟩ <;>
          simp only [h2] at h
        · cases h
        · obtain ⟨hst3, hcp2⟩ := parse_unicode_escape_spec (advn 2 st1) cp2 st3 h2
          split at h
          · cases h
          · rename_i hlo
            simp only [PRes.ok.injEq] at h
            obtain ⟨hcp, hs⟩ := h
            subst hs
            subst hst3
            subst hst1
            have hcp2x : cp2 = hexAt st.input (st.pos + 6) := by
              rw [hcp2]
              simp only [advn]
              try congr 1
              try omega
            refine ⟨?_, ?_, ?_, ?_⟩
            · rw [decode_u_escape_eq, ← hcp1, if_pos hhi, ← hcp2x, ← hcp]
              simp only [advn, Prod.mk.injEq]
              try exact ⟨rfl, by omega⟩
              try omega
            · simp only [advn]
              try omega
            · simp only [advn]
              try omega
            · simp [advn]
    · rename_i hhi
      simp only [PRes.ok.injEq] at h
      obtain ⟨hcp, hs⟩ := h
      subst hs
      subst hst1
      refine ⟨?_, ?_, ?_, ?_⟩
      · rw [decode_u_escape_eq, ← hcp1, if_neg hhi, ← hcp]
        simp [advn]
      · simp only [advn]
        try omega
      · simp only [advn]
        try omega
      · simp [advn]

/-- Once the measuring pass has seen an escape, the flag stays set. -/
theorem measure_loop_esc_true : ∀ (f len : Nat) (st : St) (len' : Nat) (esc' : Bool) (s : St),
    measure_loop f len true st = .ok (len', esc') s → esc' = true
  | 0, _, _, _, _, _, h => by cases h
  | f + 1, len, st, len', esc', s, h => by
    simp only [measure_loop] at h
    split at h
    · cases h
    · split at h
      · simp only [PRes.ok.injEq, Prod.mk.injEq] at h
        exact h.1.2.symm
      · split at h
        · split at h
          · cases h
          · split at h
            · exact measure_loop_esc_true f _ _ _ _ _ h
            · split at h
              · split at h
                · cases h
                · exact measure_loop_esc_true f _ _ _ _ _ h
              · cases h
        · split at h
          · cases h
          · exact measure_loop_esc_true f _ _ _ _ _ h

/-- A measuring pass that reports no escapes advanced exactly one byte per
measured byte and stopped at a closing quote. -/
theorem measure_loop_noesc : ∀ (f len0 : Nat) (st : St) (len : Nat) (s : St),
    measure_loop f len0 false st = .ok (len, false) s →
    s.pos = st.pos + (len - len0) ∧ len0 ≤ len ∧ s.input = st.input ∧
      st.input.get? s.pos = some 34
  | 0, _, _, _, _, h => by cases h
  | f + 1, len0, st, len, s, h => by
    simp only [measure_loop] at h
    split at h
    · cases h
    · rename_i c hc
      split at h
      · rename_i h34
        simp only [PRes.ok.injEq, Prod.mk.injEq] at h
        obtain ⟨⟨hl, _⟩, hs⟩ := h
        subst hl; subst hs; subst h34
        exact ⟨by omega, le_rfl, rfl, hc⟩
      · split at h
        · split at h
          · cases h
          · split at h
            · exact absurd (measure_loop_esc_true f _ _ _ _ _ h) (by simp)
            · split at h
              · split at h
                · cases h
                · exact absurd (measure_loop_esc_true f _ _ _ _ _ h) (by simp)
              · cases h
        · split at h
          · cases h
          · have ih := measure_loop_noesc f (len0 + 1) (adv1 st) len s h
            simp only [adv1] at ih
            refine ⟨by omega, by omega, ih.2.2.1, ih.2.2.2⟩
termination_by structural f len0 st len s h => f

/-- Pass 2 writes exactly as many bytes as pass 1 measured: if the
measuring pass walked from `st` to the closing quote at `s`, adding
`len - len0` to the running length, then the decoding pass over
`[st.pos, s.pos)` produces exactly `len - len0` bytes (with any
sufficient fuel). -/
theorem decode_loop_len : ∀ (f len0 : Nat) (esc0 : Bool) (st : St) (len : Nat) (esc : Bool)
    (s : St), measure_loop f len0 esc0 st = .ok (len, esc) s →
    len0 ≤ len ∧ st.pos ≤ s.pos ∧ s.input = st.input ∧
    ∀ g, s.pos ≤ st.pos + g →
      (decode_loop g st.input st.pos s.pos).length = len - len0
  | 0, _, _, _, _, _, _, h => by cases h
  | f + 1, len0, esc0, st, len, esc, s, h => by
    simp only [measure_loop] at h
    split at h
    · cases h
    · rename_i c hc
      split at h
      · rename_i h34
        simp only [PRes.ok.injEq, Prod.mk.injEq] at h
        obtain ⟨⟨hl, _⟩, hs⟩ := h
        subst hl; subst hs
        refine ⟨le_rfl, le_rfl, rfl, ?_⟩
        intro g _
        cases g <;> simp [decode_loop]
      · rename_i h34
        split at h
        · rename_i h92
          split at h
          · cases h
          · rename_i e he
            split at h
            · rename_i hsimple
              have ih := decode_loop_len f (len0 + 1) true (adv1 (adv1 st)) len esc s h
              simp only [adv1] at ih he
              obtain ⟨ihl, ihp, ihi, ihd⟩ := ih
              refine ⟨by omega, by omega, ihi, ?_⟩
              intro g hg
              have hg1 : 1 ≤ g := by omega
              rcases g with _ | g'
              · omega
              · simp only [decode_loop, if_pos (show st.pos < s.pos by omega), hc]
                rw [if_pos h92]
                simp only [he]
                have hrec := ihd g' (by omega)
                rcases hsimple with h' | h' | h' | h' | h' | h' | h' | h' <;> subst h' <;>
                  simp [hrec] <;> omega
            · rename_i hnsimple
              split at h
              · rename_i h117
                split at h
                · cases h
                · rename_i cp s2 hmu
                  have hdec := measure_u_escape_decode (adv1 (adv1 st)) cp s2 hmu
                  obtain ⟨hdu, hp4, hp10, hi2⟩ := hdec
                  have ih := decode_loop_len f (len0 + (encode_utf8 cp).length) true s2 len esc
                    s h
                  obtain ⟨ihl, ihp, ihi, ihd⟩ := ih
                  simp only [adv1] at hdu hp4 hp10 hi2 he
                  refine ⟨by omega, by omega, by rw [ihi, hi2], ?_⟩
                  intro g hg
                  rcases g with _ | g'
                  · omega
                  · simp only [decode_loop, if_pos (show st.pos < s.pos by omega), hc]
                    rw [if_pos h92]
                    simp only [he]
                    subst h117
                    rw [if_neg (by decide), if_neg (by decide), if_neg (by decide),
                      if_neg (by decide), if_neg (by decide), if_neg (by decide),
                      if_neg (by decide), if_neg (by decide)]
                    simp only [hdu]
                    have hrec := ihd g' (by omega)
                    rw [← hi2]
                    simp only [List.length_append, hrec]
                    omega
              · cases h
        · rename_i h92f
          split at h
          · cases h
          · have ih := decode_loop_len f (len0 + 1) esc0 (adv1 st) len esc s h
            simp only [adv1] at ih
            obtain ⟨ihl, ihp, ihi, ihd⟩ := ih
            refine ⟨by omega, by omega, ihi, ?_⟩
            intro g hg
            rcases g with _ | g'
            · omega
            · simp only [decode_loop, if_pos (show st.pos < s.pos by omega), hc]
              rw [if_neg h92f]
              have hrec := ihd g' (by omega)
              simp only [List.length_cons, hrec]
              omega
termination_by structural f len0 esc0 st len esc s h => f

/-- C6: for every successfully parsed string token — with `(len, esc)` the
decoded byte length and escape flag computed by the measuring pass — the
node uses the inline ShortString layout exactly when the token had no
escapes and at most 7 decoded bytes (8 or more bytes, or any escape,
force the LongString layout); and in both layouts `json_get_str` returns
exactly the bytes materialized by pass 2 (the raw input run when there
were no escapes, the escape expansion otherwise), whose number is the
measured decoded length, which is also what `json_get_str_len` returns. -/
theorem c6_short_string_boundary :
    ∀ (st : St) (v : JVal) (st' : St) (len : Nat) (esc : Bool) (s : St),
      parse_string st = .ok v st' →
      measure_loop ((adv1 st).input.length - (adv1 st).pos + 1) 0 false (adv1 st) =
        .ok (len, esc) s →
      ∃ bs, json_get_str (some v) = some bs ∧ bs.length = len ∧
        json_get_str_len (some v) = len ∧
        ((∃ b, v = JVal.vsstr b) ↔ (esc = false ∧ len ≤ 7)) ∧
        (esc = false → bs = ((adv1 st).input.drop (adv1 st).pos).take len) ∧
        (esc = true →
          bs = decode_loop (s.pos + 1 - (adv1 st).pos) (adv1 st).input (adv1 st).pos s.pos) := by
  intro st v st' len esc s hps hm
  simp only [parse_string] at hps
  split at hps
  · cases hps
  · rw [hm] at hps
    simp only at hps
    split at hps
    · rename_i hshort
      obtain ⟨hesc0, hlen7⟩ := hshort
      subst hesc0
      simp only [PRes.ok.injEq] at hps
      obtain ⟨hv, _⟩ := hps
      subst hv
      obtain ⟨hpos, _, hinp, hquote⟩ := measure_loop_noesc _ 0 (adv1 st) len s hm
      have hlt : s.pos < (adv1 st).input.length := by
        rcases List.get?_eq_some.mp hquote with ⟨hl, _⟩
        exact hl
      refine ⟨_, rfl, ?_, ?_, ?_, ?_, ?_⟩
      · simp only [List.length_take, List.length_drop]
        omega
      · simp only [json_get_str_len, List.length_take, List.length_drop]
        omega
      · simp only [JSON_SHORT_STR_MAX] at hlen7
        simp [hlen7]
      · intro _; rfl
      · intro hcontr; cases hcontr
    · rename_i hnshort
      split at hps
      · rename_i hesc0
        subst hesc0
        simp only [PRes.ok.injEq] at hps
        obtain ⟨hv, _⟩ := hps
        subst hv
        obtain ⟨hpos, _, hinp, hquote⟩ := measure_loop_noesc _ 0 (adv1 st) len s hm
        have hlt : s.pos < (adv1 st).input.length := by
          rcases List.get?_eq_some.mp hquote with ⟨hl, _⟩
          exact hl
        refine ⟨_, rfl, ?_, rfl, ?_, ?_, ?_⟩
        · simp only [List.length_take, List.length_drop]
          omega
        · constructor
          · rintro ⟨b, hb⟩; cases hb
          · intro hct
            exact absurd hct hnshort
        · intro _; rfl
        · intro hcontr; cases hcontr
      · rename_i hesc1
        have hesc : esc = true := by
          cases esc
          · exact absurd rfl hesc1
          · rfl
        subst hesc
        simp only [PRes.ok.injEq] at hps
        obtain ⟨hv, _⟩ := hps
        subst hv
        obtain ⟨_, hple, hsinp, hdlen⟩ :=
          decode_loop_len _ 0 false (adv1 st) len true s hm
        refine ⟨_, rfl, ?_, rfl, ?_, ?_, ?_⟩
        · have := hdlen (s.pos + 1 - (adv1 st).pos) (by omega)
          simpa using this
        · constructor
          · rintro ⟨b, hb⟩; cases hb
          · rintro ⟨hct, _⟩; cases hct
        · intro hcontr; cases hcontr
        · intro _; rfl

/-- Witness for C6 at the concrete token `"abc"`: three decoded bytes, no
escape, stored inline. -/
theorem c6_short_string_boundary_witness :
    ∃ bs, json_get_str (some (JVal.vsstr [97, 98, 99])) = some bs ∧ bs.length = 3 ∧
      json_get_str_len (some (JVal.vsstr [97, 98, 99])) = 3 ∧
      ((∃ b, JVal.vsstr [97, 98, 99] = JVal.vsstr b) ↔ (false = false ∧ 3 ≤ 7)) := by
  have h := c6_short_string_boundary ⟨[34, 97, 98, 99, 34], 0, 1, 1, 0⟩
    (JVal.vsstr [97, 98, 99]) ⟨[34, 97, 98, 99, 34], 5, 1, 6, 0⟩ 3 false
    ⟨[34, 97, 98, 99, 34], 4, 1, 5, 0⟩ (by decide) (by decide)
  obtain ⟨bs, h1, h2, h3, h4, _⟩ := h
  exact ⟨bs, h1, h2, h3, h4⟩

/-! ### C2: arena stability.

`parse_json` sizes the node arena at `max(64 KiB, 24 * (len/4 + 1))`
bytes; parsing the 6001-byte input `[1,1,…,1]` (3000 elements) allocates
3001 nodes = 72024 bytes, which exceeds the initial 65536 bytes, so
`arena_alloc_val` calls the relocating `arena_grow` while the parse still
holds references into the old block (`arr`, `prev` in `parse_array`, and
the root pointer later stored in `doc->root`). -/

/-- The byte list `1,1,…,1` with `m + 1` ones. -/
def onesElems : Nat → List Nat
  | 0 => [49]
  | m + 1 => 49 :: 44 :: onesElems m

/-- The byte list `[1,1,…,1]` with `m + 1` ones. -/
def onesInput (m : Nat) : List Nat := 91 :: onesElems m ++ [93]

/-- `n` integer-1 elements. -/
def repOnes : Nat → JItems
  | 0 => .nil
  | n + 1 => .cons (.vint 1) (repOnes n)

theorem onesElems_length : ∀ m, (onesElems m).length = 2 * m + 1
  | 0 => rfl
  | m + 1 => by simp [onesElems, onesElems_length m]; omega

theorem countItems_repOnes : ∀ n, countItems (repOnes n) = n
  | 0 => rfl
  | n + 1 => by
    simp [repOnes, countItems, countNodes, countItems_repOnes n]
    omega

/-- `skip_ws` does not move when the current byte is not whitespace. -/
theorem skip_ws_nonws (st : St) (c : Nat) (hc : st.input.get? st.pos = some c)
    (h1 : ¬ (c = 32 ∨ c = 9 ∨ c = 13)) (h2 : ¬ c = 10) : skip_ws st = st := by
  simp only [skip_ws, skip_ws_go, hc]
  rw [if_neg h1, if_neg h2]

/-- `skip_ws` does not move at the end of the input. -/
theorem skip_ws_end (st : St) (hc : st.input.get? st.pos = none) : skip_ws st = st := by
  simp only [skip_ws, skip_ws_go, hc]

/-- `peek` at a non-whitespace byte. -/
theorem peekc_nonws (st : St) (c : Nat) (hc : st.input.get? st.pos = some c)
    (h1 : ¬ (c = 32 ∨ c = 9 ∨ c = 13)) (h2 : ¬ c = 10) : peekc st = (c, st) := by
  simp only [peekc, skip_ws_nonws st c hc h1 h2, hc]

/-- `consume` of the expected non-whitespace byte. -/
theorem consume_hit (st : St) (c : Nat) (hc : st.input.get? st.pos = some c)
    (h1 : ¬ (c = 32 ∨ c = 9 ∨ c = 13)) (h2 : ¬ c = 10) :
    consume c st = (true, adv1 st) := by
  simp only [consume, skip_ws_nonws st c hc h1 h2, hc, if_pos]

theorem digRun_go_stop (st : St) : ∀ (f j : Nat), digAt st j = false → digRun.go st f j = 0
  | 0, _, _ => rfl
  | f + 1, j, h => by simp [digRun.go, h]

/-- A digit run of length one. -/
theorem digRun_single (st : St) (i : Nat) (hd : digAt st i = true)
    (hnd : digAt st (i + 1) = false) : digRun st i = 1 := by
  simp only [digRun, digRun.go, hd, if_pos]
  simp [digRun_go_stop st _ _ hnd]

/-- Abbreviation for building a parser context. -/
def mkSt (input : List Nat) (pos line col flags : Nat) : St :=
  { input := input, pos := pos, line := line, col := col, flags := flags }

/-- Parsing the number token `1` when the following byte is a comma or a
closing bracket. -/
theorem parse_number_one (pre post : List Nat) (line col : Nat) (c : Nat)
    (hpost : post.get? 0 = some c) (hc : c = 44 ∨ c = 93) :
    parse_number (mkSt (pre ++ 49 :: post) pre.length line col 0) =
      .ok (.vint 1) (mkSt (pre ++ 49 :: post) (pre.length + 1) line (col + 1) 0) := by
  set st : St := mkSt (pre ++ 49 :: post) pre.length line col 0 with hst
  have h0 : st.input.get? st.pos = some 49 := by
    show (pre ++ 49 :: post).get? pre.length = some 49
    rw [List.get?_append_right (le_refl _), Nat.sub_self]
    rfl
  have h1 : st.input.get? (st.pos + 1) = some c := by
    show (pre ++ 49 :: post).get? (pre.length + 1) = some c
    rw [List.get?_append_right (by omega),
      show pre.length + 1 - pre.length = 1 from by omega]
    exact hpost
  have hd0 : digAt st st.pos = true := by
    unfold digAt
    rw [h0]
    rfl
  have hd1 : digAt st (st.pos + 1) = false := by
    unfold digAt
    rw [h1]
    rcases hc with h | h <;> subst h <;> rfl
  have hrun : digRun st st.pos = 1 := digRun_single st st.pos hd0 hd1
  have htok : (st.input.drop st.pos).take 1 = [49] := by
    show ((pre ++ 49 :: post).drop pre.length).take 1 = [49]
    rw [List.drop_left]
    rfl
  have hti : tokIntVal st 1 = 1 := by
    simp [tokIntVal, htok, digitsVal]
  have h0e : st.input[st.pos]? = some 49 := by
    rw [← List.get?_eq_getElem?]; exact h0
  have h1e : st.input[st.pos + 1]? = some c := by
    rw [← List.get?_eq_getElem?]; exact h1
  have hscan : numScan st = .ok (1, false) st := by
    rcases hc with h | h <;> subst h <;>
      norm_num [numScan, byteAt, h0e, h1e, hd0, hd1, hrun]
  simp only [parse_number, hscan]
  rw [htok, hti]
  norm_num [advn, hst, mkSt]

/-- `adv1` in `mkSt` form. -/
theorem adv1_mkSt (i : List Nat) (p l c f : Nat) :
    adv1 (mkSt i p l c f) = mkSt i (p + 1) l (c + 1) f := rfl

theorem mkSt_flags (i : List Nat) (p l c f : Nat) : (mkSt i p l c f).flags = f := rfl

/-- The element loop of `parse_array` on the tail `1,1,…,1]`. -/
theorem ones_loop : ∀ (m f : Nat) (pre : List Nat) (line col : Nat), 2 * m + 2 ≤ f →
    arr_loop f 0 1 (mkSt (pre ++ onesElems m ++ [93]) pre.length line col 0) =
      .ok (repOnes (m + 1))
        (mkSt (pre ++ onesElems m ++ [93]) (pre.length + 2 * m + 2) line (col + (2 * m + 2)) 0)
  | 0, f, pre, line, col, hf => by
    obtain ⟨f4, rfl⟩ : ∃ f4, f = f4 + 2 := ⟨f - 2, by omega⟩
    have hg : pre ++ onesElems 0 ++ [93] = pre ++ 49 :: [93] := by
      simp [onesElems, List.append_assoc]
    rw [hg]
    rw [show pre.length + 2 * 0 + 2 = pre.length + 1 + 1 from by omega,
      show col + (2 * 0 + 2) = col + 1 + 1 from by omega]
    have hg49 : (pre ++ 49 :: [93]).get? pre.length = some 49 := by
      rw [List.get?_append_right (le_refl _), Nat.sub_self]
      rfl
    have hg93 : (pre ++ 49 :: [93]).get? (pre.length + 1) = some 93 := by
      rw [List.get?_append_right (by omega),
        show pre.length + 1 - pre.length = 1 from by omega]
      rfl
    have hpk := peekc_nonws (mkSt (pre ++ 49 :: [93]) pre.length line col 0) 49 hg49
      (by decide) (by decide)
    have hpk2 := peekc_nonws (mkSt (pre ++ 49 :: [93]) (pre.length + 1) line (col + 1) 0) 93
      hg93 (by decide) (by decide)
    have hnum := parse_number_one pre [93] line col 93 rfl (Or.inr rfl)
    have hpv : parse_value (f4 + 1) 0 1 (mkSt (pre ++ 49 :: [93]) pre.length line col 0) =
        .ok (.vint 1) (mkSt (pre ++ 49 :: [93]) (pre.length + 1) line (col + 1) 0) := by
      simp only [parse_value, hpk]
      norm_num
      exact hnum
    rw [show f4 + 2 = f4 + 1 + 1 from rfl]
    rw [arr_loop]
    rw [hpv]
    try dsimp only
    rw [hpk2]
    try dsimp only
    rw [if_pos rfl]
    rw [consume_hit _ 93 hg93 (by decide) (by decide)]
    try dsimp only
    rw [adv1_mkSt]
    rw [show repOnes (0 + 1) = JItems.cons (.vint 1) JItems.nil from rfl]
  | m + 1, f, pre, line, col, hf => by
    obtain ⟨f3, rfl⟩ : ∃ f3, f = f3 + 2 := ⟨f - 2, by omega⟩
    have hg : pre ++ onesElems (m + 1) ++ [93] = pre ++ 49 :: 44 :: (onesElems m ++ [93]) := by
      simp [onesElems, List.append_assoc]
    rw [hg]
    rw [show pre.length + 2 * (m + 1) + 2 = pre.length + 1 + 1 + 2 * m + 2 from by omega,
      show col + (2 * (m + 1) + 2) = col + 1 + 1 + (2 * m + 2) from by omega]
    have hg49 : (pre ++ 49 :: 44 :: (onesElems m ++ [93])).get? pre.length = some 49 := by
      rw [List.get?_append_right (le_refl _), Nat.sub_self]
      rfl
    have hg44 : (pre ++ 49 :: 44 :: (onesElems m ++ [93])).get? (pre.length + 1) = some 44 := by
      rw [List.get?_append_right (by omega),
        show pre.length + 1 - pre.length = 1 from by omega]
      rfl
    have hpk := peekc_nonws
      (mkSt (pre ++ 49 :: 44 :: (onesElems m ++ [93])) pre.length line col 0) 49 hg49
      (by decide) (by decide)
    have hpk2 := peekc_nonws
      (mkSt (pre ++ 49 :: 44 :: (onesElems m ++ [93])) (pre.length + 1) line (col + 1) 0) 44
      hg44 (by decide) (by decide)
    have hnum := parse_number_one pre (44 :: (onesElems m ++ [93])) line col 44 rfl (Or.inl rfl)
    have hpv : parse_value (f3 + 1) 0 1
        (mkSt (pre ++ 49 :: 44 :: (onesElems m ++ [93])) pre.length line col 0) =
        .ok (.vint 1)
          (mkSt (pre ++ 49 :: 44 :: (onesElems m ++ [93])) (pre.length + 1) line (col + 1) 0) := by
      simp only [parse_value, hpk]
      norm_num
      exact hnum
    have hrec := ones_loop m (f3 + 1) (pre ++ [49, 44]) line (col + 1 + 1) (by omega)
    rw [show pre ++ [49, 44] ++ onesElems m ++ [93] =
      pre ++ 49 :: 44 :: (onesElems m ++ [93]) from by simp] at hrec
    have hlen : (pre ++ [49, 44]).length = pre.length + 1 + 1 := by simp
    rw [hlen] at hrec
    rw [show f3 + 2 = f3 + 1 + 1 from rfl]
    rw [arr_loop]
    rw [hpv]
    try dsimp only
    rw [hpk2]
    try dsimp only
    rw [if_neg (by decide : ¬ (44 : Nat) = 93)]
    rw [consume_hit _ 44 hg44 (by decide) (by decide)]
    try dsimp only
    rw [adv1_mkSt]
    rw [mkSt_flags]
    rw [if_neg (by decide : ¬ allowTrailing 0 = true)]
    rw [hrec]
    try dsimp only
    rw [show repOnes (m + 1 + 1) = JItems.cons (.vint 1) (repOnes (m + 1)) from rfl]

/-- `parse_array` on the whole input `[1,1,…,1]`. -/
theorem ones_array (m f : Nat) (h : 2 * m + 3 ≤ f) :
    parse_array f 0 0 (mkSt (91 :: (onesElems m ++ [93])) 0 1 1 0) =
      .ok (.varr (repOnes (m + 1)))
        (mkSt (91 :: (onesElems m ++ [93])) (1 + 2 * m + 2) 1 (2 + (2 * m + 2)) 0) := by
  obtain ⟨f5, rfl⟩ : ∃ f5, f = f5 + 1 := ⟨f - 1, by omega⟩
  have hg91 : (91 :: (onesElems m ++ [93])).get? 0 = some 91 := rfl
  have hg49 : (91 :: (onesElems m ++ [93])).get? 1 = some 49 := by cases m <;> rfl
  have hpk1 := peekc_nonws (mkSt (91 :: (onesElems m ++ [93])) 1 1 2 0) 49 hg49
    (by decide) (by decide)
  have hloop := ones_loop m f5 [91] 1 2 (by omega)
  rw [show ([91] : List Nat) ++ onesElems m ++ [93] = 91 :: (onesElems m ++ [93]) from
    by simp] at hloop
  rw [show ([91] : List Nat).length = 1 from rfl] at hloop
  rw [parse_array]
  rw [consume_hit _ 91 hg91 (by decide) (by decide)]
  try dsimp only
  rw [adv1_mkSt]
  rw [if_neg (by omega : ¬ ((0 : Nat) < 0 ∧ 0 ≤ 0))]
  rw [hpk1]
  try dsimp only
  rw [if_neg (by decide : ¬ (49 : Nat) = 93)]
  rw [show (0 : Nat) + 1 = 1 from rfl]
  rw [hloop]

/-- `parse_value` on the whole input `[1,1,…,1]`. -/
theorem ones_value (m f : Nat) (h : 2 * m + 4 ≤ f) :
    parse_value f 0 0 (mkSt (91 :: (onesElems m ++ [93])) 0 1 1 0) =
      .ok (.varr (repOnes (m + 1)))
        (mkSt (91 :: (onesElems m ++ [93])) (1 + 2 * m + 2) 1 (2 + (2 * m + 2)) 0) := by
  obtain ⟨f6, rfl⟩ : ∃ f6, f = f6 + 1 := ⟨f - 1, by omega⟩
  have hg91 : (91 :: (onesElems m ++ [93])).get? 0 = some 91 := rfl
  have hpk0 := peekc_nonws (mkSt (91 :: (onesElems m ++ [93])) 0 1 1 0) 91 hg91
    (by decide) (by decide)
  rw [parse_value]
  rw [hpk0]
  try dsimp only
  rw [if_neg (by decide : ¬ (91 : Nat) = 110), if_neg (by decide : ¬ (91 : Nat) = 116),
    if_neg (by decide : ¬ (91 : Nat) = 102), if_neg (by decide : ¬ (91 : Nat) = 34),
    if_pos (rfl : (91 : Nat) = 91)]
  rw [ones_array m f6 (by omega)]

/-- `json_parse_opts` on the whole input `[1,1,…,1]`. -/
theorem ones_parse (m : Nat) :
    json_parse_opts (onesInput m) 0 0 =
      .ok (.varr (repOnes (m + 1)))
        (mkSt (onesInput m) (1 + 2 * m + 2) 1 (2 + (2 * m + 2)) 0) := by
  rw [show onesInput m = 91 :: (onesElems m ++ [93]) from rfl]
  have hlen : (91 :: (onesElems m ++ [93])).length = 2 * m + 3 := by
    simp [onesElems_length]
  have hv := ones_value m (2 * (2 * m + 3) + 16) (by omega)
  simp only [mkSt] at hv
  have hend : (91 :: (onesElems m ++ [93])).get? (1 + 2 * m + 2) = none := by
    rw [List.get?_eq_none, hlen]
    omega
  rw [json_parse_opts]
  rw [hlen]
  rw [if_neg (by omega : ¬ 2 * m + 3 = 0)]
  rw [parse_json]
  try dsimp only
  rw [fuelFor]
  rw [hlen]
  rw [hv]
  try dsimp only
  rw [skip_ws_end _ hend]
  try dsimp only
  rw [hlen]
  rw [if_neg (by omega : ¬ 1 + 2 * m + 2 < 2 * m + 3)]
  rfl

/-- While `used + 24 * k ≤ size`, `k` allocations stay in the same block. -/
theorem arena_run_no_grow : ∀ (k g s u : Nat), u + 24 * k ≤ s →
    arena_run k ⟨g, s, u⟩ = ⟨g, s, u + 24 * k⟩
  | 0, _, _, _, _ => rfl
  | k + 1, g, s, u, h => by
    have hng : ¬ s < u + 24 := by omega
    rw [arena_run]
    rw [show (arena_alloc_val ⟨g, s, u⟩).2 = (⟨g, s, u + 24⟩ : ArenaSt) from by
      simp [arena_alloc_val, hng]]
    rw [arena_run_no_grow k g s (u + 24) (by omega)]
    congr 1
    omega

theorem arena_run_add : ∀ (k j : Nat) (a : ArenaSt),
    arena_run (j + k) a = arena_run j (arena_run k a)
  | 0, _, _ => rfl
  | k + 1, j, a => by
    rw [show j + (k + 1) = (j + k) + 1 from rfl]
    rw [arena_run, arena_run_add k j]
    rfl

/-- The 3001st-node parse grows the arena exactly once: the block live at
the end of the parse is generation 1, not the generation-0 block into
which the first 2730 nodes were allocated. -/
theorem arena_gen_after : (arena_run 3001 (arena_create_model 6001)).gen = 1 := by
  rw [show (3001 : Nat) = 271 + 2730 from by norm_num]
  rw [arena_run_add 2730 271]
  rw [show arena_create_model 6001 = (⟨0, 65536, 0⟩ : ArenaSt) from by decide]
  rw [arena_run_no_grow 2730 0 65536 0 (by norm_num)]
  rw [show (⟨0, 65536, 0 + 24 * 2730⟩ : ArenaSt) = (⟨0, 65536, 65520⟩ : ArenaSt) from by
    norm_num]
  rw [show (271 : Nat) = 270 + 1 from rfl]
  rw [arena_run]
  rw [show (arena_alloc_val ⟨0, 65536, 65520⟩).2 = (⟨1, 131072, 65544⟩ : ArenaSt) from by
    decide]
  rw [arena_run_no_grow 270 1 131072 65544 (by norm_num)]

/-- **C2**: REFUTED — node references are *not* stable across a single
parse.  The clean 6001-byte input `[1,1,…,1]` (3000 elements) parses
successfully into 3001 nodes.  `parse_json` sizes the arena at
`max(64 KiB, 24 * (len/4 + 1)) = 65536` bytes, but the 3001 nodes need
`24 * 3001 = 72024` bytes, so during the parse `arena_alloc_val` calls
`arena_grow`, which copies the nodes into a freshly allocated block
(generation 1) and frees the old one — while `parse_array`'s local
`arr`/`prev` pointers and the future `doc->root` still refer into the
freed generation-0 block.  Concretely, the address handed out by the
very first allocation carries generation 0, while the block that is
live when the parse returns has generation 1. -/
theorem c2_arena_relocates_nodes :
    json_parse_opts (onesInput 2999) 0 0 =
      .ok (.varr (repOnes 3000)) (mkSt (onesInput 2999) 6001 1 6002 0) ∧
    countNodes (.varr (repOnes 3000)) = 3001 ∧
    (onesInput 2999).length = 6001 ∧
    initial_arena_size 6001 = 65536 ∧
    initial_arena_size 6001 < 24 * 3001 ∧
    alloc_addr (arena_create_model 6001) 0 = (0, 0) ∧
    (arena_run 3001 (arena_create_model 6001)).gen = 1 ∧
    (alloc_addr (arena_create_model 6001) 0).1 ≠
      (arena_run 3001 (arena_create_model 6001)).gen := by
  refine ⟨?_, ?_, ?_, ?_, ?_, ?_, ?_, ?_⟩
  · have h := ones_parse 2999
    rw [show (1 + 2 * 2999 + 2 : Nat) = 6001 from by norm_num,
      show (2 + (2 * 2999 + 2) : Nat) = 6002 from by norm_num] at h
    exact h
  · simp [countNodes, countItems_repOnes]
  · rw [show onesInput 2999 = 91 :: (onesElems 2999 ++ [93]) from rfl]
    simp [onesElems_length]
  · decide
  · decide
  · decide
  · exact arena_gen_after
  · rw [arena_gen_after]
    decide



/-! ### C5: the depth limit.

The C depth check is `max_depth > 0 && depth >= max_depth` on entry to
`parse_array` / `parse_object` (src/parse.c lines 487, 545), with `depth`
incremented around the element loops.  Relative to the unlimited run
(`max_depth = 0`), a run with limit `maxd > 0` therefore succeeds with
the identical tree when the tree's container depth fits, and fails with
`JSON_E_DEPTH` when it does not; and whatever a limited run accepts, the
unlimited run accepts as well. -/

theorem parse_null_cdepth (st : St) (v : JVal) (s : St) (h : parse_null st = .ok v s) :
    cdepth v = 0 := by
  unfold parse_null at h
  split at h
  · rw [PRes.ok.injEq] at h
    obtain ⟨hv, -⟩ := h
    subst hv
    rfl
  · exact PRes.noConfusion h

theorem parse_true_cdepth (st : St) (v : JVal) (s : St) (h : parse_true st = .ok v s) :
    cdepth v = 0 := by
  unfold parse_true at h
  split at h
  · rw [PRes.ok.injEq] at h
    obtain ⟨hv, -⟩ := h
    subst hv
    rfl
  · exact PRes.noConfusion h

theorem parse_false_cdepth (st : St) (v : JVal) (s : St) (h : parse_false st = .ok v s) :
    cdepth v = 0 := by
  unfold parse_false at h
  split at h
  · rw [PRes.ok.injEq] at h
    obtain ⟨hv, -⟩ := h
    subst hv
    rfl
  · exact PRes.noConfusion h

theorem parse_number_cdepth (st : St) (v : JVal) (s : St) (h : parse_number st = .ok v s) :
    cdepth v = 0 := by
  unfold parse_number at h
  try dsimp only at h
  repeat' split at h
  all_goals
    first
      | exact PRes.noConfusion h
      | (rw [PRes.ok.injEq] at h; obtain ⟨hv, -⟩ := h; subst hv; rfl)

theorem parse_string_cdepth (st : St) (v : JVal) (s : St) (h : parse_string st = .ok v s) :
    cdepth v = 0 := by
  unfold parse_string at h
  try dsimp only at h
  repeat' split at h
  all_goals
    first
      | exact PRes.noConfusion h
      | (rw [PRes.ok.injEq] at h; obtain ⟨hv, -⟩ := h; subst hv; rfl)

/-! The limited run reconstructed from the unlimited one: identical
success when the parsed tree fits the limit, a `Depth` error when it
does not. -/

set_option maxHeartbeats 2000000 in
mutual
theorem parse_value_depth : ∀ (f maxd d : Nat) (st : St) (v : JVal) (st' : St),
    0 < maxd → d ≤ maxd → parse_value f 0 d st = .ok v st' →
    (d + cdepth v ≤ maxd → parse_value f maxd d st = .ok v st') ∧
    (maxd < d + cdepth v → ∃ e s, parse_value f maxd d st = .err e s ∧ e.code = .depthErr)
  | 0, _, _, st, v, st', _, _, h0 => by
    rw [parse_value] at h0
    exact PRes.noConfusion h0
  | f + 1, maxd, d, st, v, st', hm, hd, h0 => by
    rw [parse_value] at h0 ⊢
    rcases hp : peekc st with ⟨c, st1⟩
    rw [hp] at h0
    try dsimp only at h0 ⊢
    split_ifs at h0 ⊢ with h1 h2 h3 h4 h5 h6 h7
    · have hz := parse_null_cdepth st1 v st' h0
      exact ⟨fun _ => h0, fun hlt => absurd hlt (by omega)⟩
    · have hz := parse_true_cdepth st1 v st' h0
      exact ⟨fun _ => h0, fun hlt => absurd hlt (by omega)⟩
    · have hz := parse_false_cdepth st1 v st' h0
      exact ⟨fun _ => h0, fun hlt => absurd hlt (by omega)⟩
    · have hz := parse_string_cdepth st1 v st' h0
      exact ⟨fun _ => h0, fun hlt => absurd hlt (by omega)⟩
    · exact parse_array_depth f maxd d st1 v st' hm hd h0
    · exact parse_object_depth f maxd d st1 v st' hm hd h0
    · have hz := parse_number_cdepth st1 v st' h0
      exact ⟨fun _ => h0, fun hlt => absurd hlt (by omega)⟩
termination_by structural f maxd d st v st' hm hd h0 => f

theorem parse_array_depth : ∀ (f maxd d : Nat) (st : St) (v : JVal) (st' : St),
    0 < maxd → d ≤ maxd → parse_array f 0 d st = .ok v st' →
    (d + cdepth v ≤ maxd → parse_array f maxd d st = .ok v st') ∧
    (maxd < d + cdepth v → ∃ e s, parse_array f maxd d st = .err e s ∧ e.code = .depthErr)
  | 0, _, _, st, v, st', _, _, h0 => by
    rw [parse_array] at h0
    exact PRes.noConfusion h0
  | f + 1, maxd, d, st, v, st', hm, hd, h0 => by
    rw [parse_array] at h0 ⊢
    rcases hc : consume 91 st with ⟨b, st1⟩
    rw [hc] at h0
    cases b
    · try dsimp only at h0
      exact PRes.noConfusion h0
    · try dsimp only at h0 ⊢
      rw [if_neg (by omega : ¬ ((0 : Nat) < 0 ∧ 0 ≤ d))] at h0
      by_cases hdm : maxd ≤ d
      · rw [if_pos (⟨hm, hdm⟩ : 0 < maxd ∧ maxd ≤ d)]
        have hv1 : 1 ≤ cdepth v := by
          rcases hp : peekc st1 with ⟨c2, st2⟩
          rw [hp] at h0
          try dsimp only at h0
          by_cases h93 : c2 = 93
          · rw [if_pos h93] at h0
            rw [PRes.ok.injEq] at h0
            obtain ⟨hv, -⟩ := h0
            subst hv
            simp [cdepth]
          · rw [if_neg h93] at h0
            rcases hl0 : arr_loop f 0 (d + 1) st2 with ⟨items2, s1⟩ | ⟨e1, s1⟩
            · rw [hl0] at h0
              try dsimp only at h0
              rw [PRes.ok.injEq] at h0
              obtain ⟨hv, -⟩ := h0
              subst hv
              simp [cdepth]
            · rw [hl0] at h0
              try dsimp only at h0
              exact PRes.noConfusion h0
        constructor
        · intro hle
          exact absurd hle (by omega)
        · intro _
          exact ⟨mkErr .depthErr st1, st1, rfl, rfl⟩
      · rw [if_neg (by omega : ¬ (0 < maxd ∧ maxd ≤ d))]
        rcases hp : peekc st1 with ⟨c2, st2⟩
        rw [hp] at h0
        try dsimp only at h0 ⊢
        by_cases h93 : c2 = 93
        · rw [if_pos h93] at h0 ⊢
          rw [PRes.ok.injEq] at h0
          obtain ⟨hv, hs⟩ := h0
          subst hv
          subst hs
          constructor
          · intro _
            rfl
          · intro hlt
            have h1 : cdepth (JVal.varr JItems.nil) = 1 := rfl
            exact absurd hlt (by omega)
        · rw [if_neg h93] at h0 ⊢
          rcases hl0 : arr_loop f 0 (d + 1) st2 with ⟨items2, s1⟩ | ⟨e1, s1⟩
          · rw [hl0] at h0
            try dsimp only at h0
            rw [PRes.ok.injEq] at h0
            obtain ⟨hv, hs⟩ := h0
            subst hv
            subst hs
            have hrec := arr_loop_depth f maxd (d + 1) st2 items2 s1 hm (by omega) hl0
            constructor
            · intro hle
              have hfit : d + 1 + cdepthItems items2 ≤ maxd := by
                simp only [cdepth] at hle
                omega
              rw [hrec.1 hfit]
            · intro hlt
              have hov : maxd < d + 1 + cdepthItems items2 := by
                simp only [cdepth] at hlt
                omega
              obtain ⟨e, s, he, hcode⟩ := hrec.2 hov
              exact ⟨e, s, by rw [he], hcode⟩
          · rw [hl0] at h0
            try dsimp only at h0
            exact PRes.noConfusion h0
termination_by structural f maxd d st v st' hm hd h0 => f

theorem arr_loop_depth : ∀ (f maxd d : Nat) (st : St) (its : JItems) (st' : St),
    0 < maxd → d ≤ maxd → arr_loop f 0 d st = .ok its st' →
    (d + cdepthItems its ≤ maxd → arr_loop f maxd d st = .ok its st') ∧
    (maxd < d + cdepthItems its → ∃ e s, arr_loop f maxd d st = .err e s ∧ e.code = .depthErr)
  | 0, _, _, st, its, st', _, _, h0 => by
    rw [arr_loop] at h0
    exact PRes.noConfusion h0
  | f + 1, maxd, d, st, its, st', hm, hd, h0 => by
    rw [arr_loop] at h0 ⊢
    rcases hv0 : parse_value f 0 d st with ⟨elem, st1⟩ | ⟨e1, s1⟩
    · rw [hv0] at h0
      try dsimp only at h0
      have hval := parse_value_depth f maxd d st elem st1 hm hd hv0
      rcases hp : peekc st1 with ⟨c, st2⟩
      rw [hp] at h0
      try dsimp only at h0
      by_cases h93 : c = 93
      · rw [if_pos h93] at h0
        rw [PRes.ok.injEq] at h0
        obtain ⟨hi, hs⟩ := h0
        subst hi
        subst hs
        constructor
        · intro hle
          have hef : d + cdepth elem ≤ maxd := by
            simp only [cdepthItems] at hle
            omega
          rw [hval.1 hef]
          try dsimp only
          rw [hp]
          try dsimp only
          rw [if_pos h93]
        · intro hlt
          have hov : maxd < d + cdepth elem := by
            simp only [cdepthItems] at hlt
            omega
          obtain ⟨e, s, he, hcode⟩ := hval.2 hov
          exact ⟨e, s, by rw [he], hcode⟩
      · rw [if_neg h93] at h0
        rcases hc44 : consume 44 st2 with ⟨b, st3⟩
        rw [hc44] at h0
        cases b
        · try dsimp only at h0
          exact PRes.noConfusion h0
        · try dsimp only at h0
          by_cases hat : allowTrailing st3.flags = true
          · rw [if_pos hat] at h0
            rcases hp2 : peekc st3 with ⟨c2, st4⟩
            rw [hp2] at h0
            try dsimp only at h0
            by_cases h93b : c2 = 93
            · rw [if_pos h93b] at h0
              rw [PRes.ok.injEq] at h0
              obtain ⟨hi, hs⟩ := h0
              subst hi
              subst hs
              constructor
              · intro hle
                have hef : d + cdepth elem ≤ maxd := by
                  simp only [cdepthItems] at hle
                  omega
                rw [hval.1 hef]
                try dsimp only
                rw [hp]
                try dsimp only
                rw [if_neg h93, hc44]
                try dsimp only
                rw [if_pos hat, hp2]
                try dsimp only
                rw [if_pos h93b]
              · intro hlt
                have hov : maxd < d + cdepth elem := by
                  simp only [cdepthItems] at hlt
                  omega
                obtain ⟨e, s, he, hcode⟩ := hval.2 hov
                exact ⟨e, s, by rw [he], hcode⟩
            · rw [if_neg h93b] at h0
              rcases hl0 : arr_loop f 0 d st4 with ⟨rest, s1⟩ | ⟨e1, s1⟩
              · rw [hl0] at h0
                try dsimp only at h0
                rw [PRes.ok.injEq] at h0
                obtain ⟨hi, hs⟩ := h0
                subst hi
                subst hs
                have hrec := arr_loop_depth f maxd d st4 rest s1 hm hd hl0
                constructor
                · intro hle
                  have hef : d + cdepth elem ≤ maxd := by
                    simp only [cdepthItems] at hle
                    omega
                  have hrf : d + cdepthItems rest ≤ maxd := by
                    simp only [cdepthItems] at hle
                    omega
                  rw [hval.1 hef]
                  try dsimp only
                  rw [hp]
                  try dsimp only
                  rw [if_neg h93, hc44]
                  try dsimp only
                  rw [if_pos hat, hp2]
                  try dsimp only
                  rw [if_neg h93b, hrec.1 hrf]
                · intro hlt
                  by_cases hef : d + cdepth elem ≤ maxd
                  · have hrf : maxd < d + cdepthItems rest := by
                      simp only [cdepthItems] at hlt
                      omega
                    obtain ⟨e, s, he, hcode⟩ := hrec.2 hrf
                    refine ⟨e, s, ?_, hcode⟩
                    rw [hval.1 hef]
                    try dsimp only
                    rw [hp]
                    try dsimp only
                    rw [if_neg h93, hc44]
                    try dsimp only
                    rw [if_pos hat, hp2]
                    try dsimp only
                    rw [if_neg h93b, he]
                  · obtain ⟨e, s, he, hcode⟩ := hval.2 (by omega)
                    exact ⟨e, s, by rw [he], hcode⟩
              · rw [hl0] at h0
                try dsimp only at h0
                exact PRes.noConfusion h0
          · rw [if_neg hat] at h0
            rcases hl0 : arr_loop f 0 d st3 with ⟨rest, s1⟩ | ⟨e1, s1⟩
            · rw [hl0] at h0
              try dsimp only at h0
              rw [PRes.ok.injEq] at h0
              obtain ⟨hi, hs⟩ := h0
              subst hi
              subst hs
              have hrec := arr_loop_depth f maxd d st3 rest s1 hm hd hl0
              constructor
              · intro hle
                have hef : d + cdepth elem ≤ maxd := by
                  simp only [cdepthItems] at hle
                  omega
                have hrf : d + cdepthItems rest ≤ maxd := by
                  simp only [cdepthItems] at hle
                  omega
                rw [hval.1 hef]
                try dsimp only
                rw [hp]
                try dsimp only
                rw [if_neg h93, hc44]
                try dsimp only
                rw [if_neg hat, hrec.1 hrf]
              · intro hlt
                by_cases hef : d + cdepth elem ≤ maxd
                · have hrf : maxd < d + cdepthItems rest := by
                    simp only [cdepthItems] at hlt
                    omega
                  obtain ⟨e, s, he, hcode⟩ := hrec.2 hrf
                  refine ⟨e, s, ?_, hcode⟩
                  rw [hval.1 hef]
                  try dsimp only
                  rw [hp]
                  try dsimp only
                  rw [if_neg h93, hc44]
                  try dsimp only
                  rw [if_neg hat, he]
                · obtain ⟨e, s, he, hcode⟩ := hval.2 (by omega)
                  exact ⟨e, s, by rw [he], hcode⟩
            · rw [hl0] at h0
              try dsimp only at h0
              exact PRes.noConfusion h0
    · rw [hv0] at h0
      try dsimp only at h0
      exact PRes.noConfusion h0
termination_by structural f maxd d st its st' hm hd h0 => f

theorem parse_object_depth : ∀ (f maxd d : Nat) (st : St) (v : JVal) (st' : St),
    0 < maxd → d ≤ maxd → parse_object f 0 d st = .ok v st' →
    (d + cdepth v ≤ maxd → parse_object f maxd d st = .ok v st') ∧
    (maxd < d + cdepth v → ∃ e s, parse_object f maxd d st = .err e s ∧ e.code = .depthErr)
  | 0, _, _, st, v, st', _, _, h0 => by
    rw [parse_object] at h0
    exact PRes.noConfusion h0
  | f + 1, maxd, d, st, v, st', hm, hd, h0 => by
    rw [parse_object] at h0 ⊢
    rcases hc : consume 123 st with ⟨b, st1⟩
    rw [hc] at h0
    cases b
    · try dsimp only at h0
      exact PRes.noConfusion h0
    · try dsimp only at h0 ⊢
      rw [if_neg (by omega : ¬ ((0 : Nat) < 0 ∧ 0 ≤ d))] at h0
      by_cases hdm : maxd ≤ d
      · rw [if_pos (⟨hm, hdm⟩ : 0 < maxd ∧ maxd ≤ d)]
        have hv1 : 1 ≤ cdepth v := by
          rcases hp : peekc st1 with ⟨c2, st2⟩
          rw [hp] at h0
          try dsimp only at h0
          by_cases h125 : c2 = 125
          · rw [if_pos h125] at h0
            rw [PRes.ok.injEq] at h0
            obtain ⟨hv, -⟩ := h0
            subst hv
            simp [cdepth]
          · rw [if_neg h125] at h0
            rcases hl0 : obj_loop f 0 (d + 1) st2 with ⟨ens2, s1⟩ | ⟨e1, s1⟩
            · rw [hl0] at h0
              try dsimp only at h0
              rw [PRes.ok.injEq] at h0
              obtain ⟨hv, -⟩ := h0
              subst hv
              simp [cdepth]
            · rw [hl0] at h0
              try dsimp only at h0
              exact PRes.noConfusion h0
        constructor
        · intro hle
          exact absurd hle (by omega)
        · intro _
          exact ⟨mkErr .depthErr st1, st1, rfl, rfl⟩
      · rw [if_neg (by omega : ¬ (0 < maxd ∧ maxd ≤ d))]
        rcases hp : peekc st1 with ⟨c2, st2⟩
        rw [hp] at h0
        try dsimp only at h0 ⊢
        by_cases h125 : c2 = 125
        · rw [if_pos h125] at h0 ⊢
          rw [PRes.ok.injEq] at h0
          obtain ⟨hv, hs⟩ := h0
          subst hv
          subst hs
          constructor
          · intro _
            rfl
          · intro hlt
            have h1 : cdepth (JVal.vobj JEntries.nil) = 1 := rfl
            exact absurd hlt (by omega)
        · rw [if_neg h125] at h0 ⊢
          rcases hl0 : obj_loop f 0 (d + 1) st2 with ⟨ens2, s1⟩ | ⟨e1, s1⟩
          · rw [hl0] at h0
            try dsimp only at h0
            rw [PRes.ok.injEq] at h0
            obtain ⟨hv, hs⟩ := h0
            subst hv
            subst hs
            have hrec := obj_loop_depth f maxd (d + 1) st2 ens2 s1 hm (by omega) hl0
            constructor
            · intro hle
              have hfit : d + 1 + cdepthEntries ens2 ≤ maxd := by
                simp only [cdepth] at hle
                omega
              rw [hrec.1 hfit]
            · intro hlt
              have hov : maxd < d + 1 + cdepthEntries ens2 := by
                simp only [cdepth] at hlt
                omega
              obtain ⟨e, s, he, hcode⟩ := hrec.2 hov
              exact ⟨e, s, by rw [he], hcode⟩
          · rw [hl0] at h0
            try dsimp only at h0
            exact PRes.noConfusion h0
termination_by structural f maxd d st v st' hm hd h0 => f

theorem obj_loop_depth : ∀ (f maxd d : Nat) (st : St) (es : JEntries) (st' : St),
    0 < maxd → d ≤ maxd → obj_loop f 0 d st = .ok es st' →
    (d + cdepthEntries es ≤ maxd → obj_loop f maxd d st = .ok es st') ∧
    (maxd < d + cdepthEntries es → ∃ e s, obj_loop f maxd d st = .err e s ∧ e.code = .depthErr)
  | 0, _, _, st, es, st', _, _, h0 => by
    rw [obj_loop] at h0
    exact PRes.noConfusion h0
  | f + 1, maxd, d, st, es, st', hm, hd, h0 => by
    rw [obj_loop] at h0 ⊢
    rcases hp : peekc st with ⟨c, st1⟩
    rw [hp] at h0
    try dsimp only at h0 ⊢
    by_cases h34 : c = 34
    · rw [if_neg (not_not_intro h34)] at h0 ⊢
      rcases hk : parse_string st1 with ⟨key, st2⟩ | ⟨e1, s1⟩
      · rw [hk] at h0
        try dsimp only at h0 ⊢
        rcases hc58 : consume 58 st2 with ⟨b, st3⟩
        rw [hc58] at h0
        cases b
        · try dsimp only at h0
          exact PRes.noConfusion h0
        · try dsimp only at h0 ⊢
          rcases hv0 : parse_value f 0 d st3 with ⟨w, st4⟩ | ⟨e1, s1⟩
          · rw [hv0] at h0
            try dsimp only at h0
            have hval := parse_value_depth f maxd d st3 w st4 hm hd hv0
            rcases hp2 : peekc st4 with ⟨c2, st5⟩
            rw [hp2] at h0
            try dsimp only at h0
            by_cases h125 : c2 = 125
            · rw [if_pos h125] at h0
              rw [PRes.ok.injEq] at h0
              obtain ⟨hi, hs⟩ := h0
              subst hi
              subst hs
              constructor
              · intro hle
                have hef : d + cdepth w ≤ maxd := by
                  simp only [cdepthEntries] at hle
                  omega
                rw [hval.1 hef]
                try dsimp only
                rw [hp2]
                try dsimp only
                rw [if_pos h125]
              · intro hlt
                have hov : maxd < d + cdepth w := by
                  simp only [cdepthEntries] at hlt
                  omega
                obtain ⟨e, s, he, hcode⟩ := hval.2 hov
                exact ⟨e, s, by rw [he], hcode⟩
            · rw [if_neg h125] at h0
              rcases hc44 : consume 44 st5 with ⟨b2, st6⟩
              rw [hc44] at h0
              cases b2
              · try dsimp only at h0
                exact PRes.noConfusion h0
              · try dsimp only at h0
                by_cases hat : allowTrailing st6.flags = true
                · rw [if_pos hat] at h0
                  rcases hp3 : peekc st6 with ⟨c3, st7⟩
                  rw [hp3] at h0
                  try dsimp only at h0
                  by_cases h125b : c3 = 125
                  · rw [if_pos h125b] at h0
                    rw [PRes.ok.injEq] at h0
                    obtain ⟨hi, hs⟩ := h0
                    subst hi
                    subst hs
                    constructor
                    · intro hle
                      have hef : d + cdepth w ≤ maxd := by
                        simp only [cdepthEntries] at hle
                        omega
                      rw [hval.1 hef]
                      try dsimp only
                      rw [hp2]
                      try dsimp only
                      rw [if_neg h125, hc44]
                      try dsimp only
                      rw [if_pos hat, hp3]
                      try dsimp only
                      rw [if_pos h125b]
                    · intro hlt
                      have hov : maxd < d + cdepth w := by
                        simp only [cdepthEntries] at hlt
                        omega
                      obtain ⟨e, s, he, hcode⟩ := hval.2 hov
                      exact ⟨e, s, by rw [he], hcode⟩
                  · rw [if_neg h125b] at h0
                    rcases hl0 : obj_loop f 0 d st7 with ⟨rest, s1⟩ | ⟨e1, s1⟩
                    · rw [hl0] at h0
                      try dsimp only at h0
                      rw [PRes.ok.injEq] at h0
                      obtain ⟨hi, hs⟩ := h0
                      subst hi
                      subst hs
                      have hrec := obj_loop_depth f maxd d st7 rest s1 hm hd hl0
                      constructor
                      · intro hle
                        have hef : d + cdepth w ≤ maxd := by
                          simp only [cdepthEntries] at hle
                          omega
                        have hrf : d + cdepthEntries rest ≤ maxd := by
                          simp only [cdepthEntries] at hle
                          omega
                        rw [hval.1 hef]
                        try dsimp only
                        rw [hp2]
                        try dsimp only
                        rw [if_neg h125, hc44]
                        try dsimp only
                        rw [if_pos hat, hp3]
                        try dsimp only
                        rw [if_neg h125b, hrec.1 hrf]
                      · intro hlt
                        by_cases hef : d + cdepth w ≤ maxd
                        · have hrf : maxd < d + cdepthEntries rest := by
                            simp only [cdepthEntries] at hlt
                            omega
                          obtain ⟨e, s, he, hcode⟩ := hrec.2 hrf
                          refine ⟨e, s, ?_, hcode⟩
                          rw [hval.1 hef]
                          try dsimp only
                          rw [hp2]
                          try dsimp only
                          rw [if_neg h125, hc44]
                          try dsimp only
                          rw [if_pos hat, hp3]
                          try dsimp only
                          rw [if_neg h125b, he]
                        · obtain ⟨e, s, he, hcode⟩ := hval.2 (by omega)
                          exact ⟨e, s, by rw [he], hcode⟩
                    · rw [hl0] at h0
                      try dsimp only at h0
                      exact PRes.noConfusion h0
                · rw [if_neg hat] at h0
                  rcases hl0 : obj_loop f 0 d st6 with ⟨rest, s1⟩ | ⟨e1, s1⟩
                  · rw [hl0] at h0
                    try dsimp only at h0
                    rw [PRes.ok.injEq] at h0
                    obtain ⟨hi, hs⟩ := h0
                    subst hi
                    subst hs
                    have hrec := obj_loop_depth f maxd d st6 rest s1 hm hd hl0
                    constructor
                    · intro hle
                      have hef : d + cdepth w ≤ maxd := by
                        simp only [cdepthEntries] at hle
                        omega
                      have hrf : d + cdepthEntries rest ≤ maxd := by
                        simp only [cdepthEntries] at hle
                        omega
                      rw [hval.1 hef]
                      try dsimp only
                      rw [hp2]
                      try dsimp only
                      rw [if_neg h125, hc44]
                      try dsimp only
                      rw [if_neg hat, hrec.1 hrf]
                    · intro hlt
                      by_cases hef : d + cdepth w ≤ maxd
                      · have hrf : maxd < d + cdepthEntries rest := by
                          simp only [cdepthEntries] at hlt
                          omega
                        obtain ⟨e, s, he, hcode⟩ := hrec.2 hrf
                        refine ⟨e, s, ?_, hcode⟩
                        rw [hval.1 hef]
                        try dsimp only
                        rw [hp2]
                        try dsimp only
                        rw [if_neg h125, hc44]
                        try dsimp only
                        rw [if_neg hat, he]
                      · obtain ⟨e, s, he, hcode⟩ := hval.2 (by omega)
                        exact ⟨e, s, by rw [he], hcode⟩
                  · rw [hl0] at h0
                    try dsimp only at h0
                    exact PRes.noConfusion h0
          · rw [hv0] at h0
            try dsimp only at h0
            exact PRes.noConfusion h0
      · rw [hk] at h0
        try dsimp only at h0
        exact PRes.noConfusion h0
    · rw [if_pos h34] at h0
      exact PRes.noConfusion h0
termination_by structural f maxd d st es st' hm hd h0 => f
end

/-! `max_depth = 0` is unlimited: whatever a limited run accepts, the
unlimited run accepts with the identical result. -/

mutual
theorem parse_value_mono : ∀ (f maxd d : Nat) (st : St) (v : JVal) (st' : St),
    parse_value f maxd d st = .ok v st' → parse_value f 0 d st = .ok v st'
  | 0, _, _, st, v, st', h => by
    rw [parse_value] at h
    exact PRes.noConfusion h
  | f + 1, maxd, d, st, v, st', h => by
    rw [parse_value] at h ⊢
    rcases hp : peekc st with ⟨c, st1⟩
    rw [hp] at h
    try dsimp only at h ⊢
    split_ifs at h ⊢
    · exact h
    · exact h
    · exact h
    · exact h
    · exact parse_array_mono f maxd d st1 v st' h
    · exact parse_object_mono f maxd d st1 v st' h
    · exact h
termination_by structural f maxd d st v st' h => f

theorem parse_array_mono : ∀ (f maxd d : Nat) (st : St) (v : JVal) (st' : St),
    parse_array f maxd d st = .ok v st' → parse_array f 0 d st = .ok v st'
  | 0, _, _, st, v, st', h => by
    rw [parse_array] at h
    exact PRes.noConfusion h
  | f + 1, maxd, d, st, v, st', h => by
    rw [parse_array] at h ⊢
    rcases hc : consume 91 st with ⟨b, st1⟩
    rw [hc] at h
    cases b
    · try dsimp only at h
      exact PRes.noConfusion h
    · try dsimp only at h ⊢
      rw [if_neg (by omega : ¬ ((0 : Nat) < 0 ∧ 0 ≤ d))]
      by_cases hdm : 0 < maxd ∧ maxd ≤ d
      · rw [if_pos hdm] at h
        exact PRes.noConfusion h
      · rw [if_neg hdm] at h
        rcases hp : peekc st1 with ⟨c2, st2⟩
        rw [hp] at h
        try dsimp only at h ⊢
        by_cases h93 : c2 = 93
        · rw [if_pos h93] at h ⊢
          exact h
        · rw [if_neg h93] at h ⊢
          rcases hl : arr_loop f maxd (d + 1) st2 with ⟨items, s1⟩ | ⟨e1, s1⟩
          · rw [hl] at h
            try dsimp only at h
            rw [arr_loop_mono f maxd (d + 1) st2 items s1 hl]
            exact h
          · rw [hl] at h
            try dsimp only at h
            exact PRes.noConfusion h
termination_by structural f maxd d st v st' h => f

theorem arr_loop_mono : ∀ (f maxd d : Nat) (st : St) (its : JItems) (st' : St),
    arr_loop f maxd d st = .ok its st' → arr_loop f 0 d st = .ok its st'
  | 0, _, _, st, its, st', h => by
    rw [arr_loop] at h
    exact PRes.noConfusion h
  | f + 1, maxd, d, st, its, st', h => by
    rw [arr_loop] at h ⊢
    rcases hv : parse_value f maxd d st with ⟨elem, st1⟩ | ⟨e1, s1⟩
    · rw [hv] at h
      try dsimp only at h
      rw [parse_value_mono f maxd d st elem st1 hv]
      try dsimp only
      rcases hp : peekc st1 with ⟨c, st2⟩
      rw [hp] at h
      try dsimp only at h ⊢
      by_cases h93 : c = 93
      · rw [if_pos h93] at h ⊢
        exact h
      · rw [if_neg h93] at h ⊢
        rcases hc44 : consume 44 st2 with ⟨b, st3⟩
        rw [hc44] at h
        cases b
        · try dsimp only at h
          exact PRes.noConfusion h
        · try dsimp only at h ⊢
          by_cases hat : allowTrailing st3.flags = true
          · rw [if_pos hat] at h ⊢
            rcases hp2 : peekc st3 with ⟨c2, st4⟩
            rw [hp2] at h
            try dsimp only at h ⊢
            by_cases h93b : c2 = 93
            · rw [if_pos h93b] at h ⊢
              exact h
            · rw [if_neg h93b] at h ⊢
              rcases hl : arr_loop f maxd d st4 with ⟨rest, s1⟩ | ⟨e1, s1⟩
              · rw [hl] at h
                try dsimp only at h
                rw [arr_loop_mono f maxd d st4 rest s1 hl]
                exact h
              · rw [hl] at h
                try dsimp only at h
                exact PRes.noConfusion h
          · rw [if_neg hat] at h ⊢
            rcases hl : arr_loop f maxd d st3 with ⟨rest, s1⟩ | ⟨e1, s1⟩
            · rw [hl] at h
              try dsimp only at h
              rw [arr_loop_mono f maxd d st3 rest s1 hl]
              exact h
            · rw [hl] at h
              try dsimp only at h
              exact PRes.noConfusion h
    · rw [hv] at h
      try dsimp only at h
      exact PRes.noConfusion h
termination_by structural f maxd d st its st' h => f

theorem parse_object_mono : ∀ (f maxd d : Nat) (st : St) (v : JVal) (st' : St),
    parse_object f maxd d st = .ok v st' → parse_object f 0 d st = .ok v st'
  | 0, _, _, st, v, st', h => by
    rw [parse_object] at h
    exact PRes.noConfusion h
  | f + 1, maxd, d, st, v, st', h => by
    rw [parse_object] at h ⊢
    rcases hc : consume 123 st with ⟨b, st1⟩
    rw [hc] at h
    cases b
    · try dsimp only at h
      exact PRes.noConfusion h
    · try dsimp only at h ⊢
      rw [if_neg (by omega : ¬ ((0 : Nat) < 0 ∧ 0 ≤ d))]
      by_cases hdm : 0 < maxd ∧ maxd ≤ d
      · rw [if_pos hdm] at h
        exact PRes.noConfusion h
      · rw [if_neg hdm] at h
        rcases hp : peekc st1 with ⟨c2, st2⟩
        rw [hp] at h
        try dsimp only at h ⊢
        by_cases h125 : c2 = 125
        · rw [if_pos h125] at h ⊢
          exact h
        · rw [if_neg h125] at h ⊢
          rcases hl : obj_loop f maxd (d + 1) st2 with ⟨ens, s1⟩ | ⟨e1, s1⟩
          · rw [hl] at h
            try dsimp only at h
            rw [obj_loop_mono f maxd (d + 1) st2 ens s1 hl]
            exact h
          · rw [hl] at h
            try dsimp only at h
            exact PRes.noConfusion h
termination_by structural f maxd d st v st' h => f

theorem obj_loop_mono : ∀ (f maxd d : Nat) (st : St) (es : JEntries) (st' : St),
    obj_loop f maxd d st = .ok es st' → obj_loop f 0 d st = .ok es st'
  | 0, _, _, st, es, st', h => by
    rw [obj_loop] at h
    exact PRes.noConfusion h
  | f + 1, maxd, d, st, es, st', h => by
    rw [obj_loop] at h ⊢
    rcases hp : peekc st with ⟨c, st1⟩
    rw [hp] at h
    try dsimp only at h ⊢
    by_cases h34 : c = 34
    · rw [if_neg (not_not_intro h34)] at h ⊢
      rcases hk : parse_string st1 with ⟨key, st2⟩ | ⟨e1, s1⟩
      · rw [hk] at h
        try dsimp only at h ⊢
        rcases hc58 : consume 58 st2 with ⟨b, st3⟩
        rw [hc58] at h
        cases b
        · try dsimp only at h
          exact PRes.noConfusion h
        · try dsimp only at h ⊢
          rcases hv : parse_value f maxd d st3 with ⟨w, st4⟩ | ⟨e1, s1⟩
          · rw [hv] at h
            try dsimp only at h
            rw [parse_value_mono f maxd d st3 w st4 hv]
            try dsimp only
            rcases hp2 : peekc st4 with ⟨c2, st5⟩
            rw [hp2] at h
            try dsimp only at h ⊢
            by_cases h125 : c2 = 125
            · rw [if_pos h125] at h ⊢
              exact h
            · rw [if_neg h125] at h ⊢
              rcases hc44 : consume 44 st5 with ⟨b2, st6⟩
              rw [hc44] at h
              cases b2
              · try dsimp only at h
                exact PRes.noConfusion h
              · try dsimp only at h ⊢
                by_cases hat : allowTrailing st6.flags = true
                · rw [if_pos hat] at h ⊢
                  rcases hp3 : peekc st6 with ⟨c3, st7⟩
                  rw [hp3] at h
                  try dsimp only at h ⊢
                  by_cases h125b : c3 = 125
                  · rw [if_pos h125b] at h ⊢
                    exact h
                  · rw [if_neg h125b] at h ⊢
                    rcases hl : obj_loop f maxd d st7 with ⟨rest, s1⟩ | ⟨e1, s1⟩
                    · rw [hl] at h
                      try dsimp only at h
                      rw [obj_loop_mono f maxd d st7 rest s1 hl]
                      exact h
                    · rw [hl] at h
                      try dsimp only at h
                      exact PRes.noConfusion h
                · rw [if_neg hat] at h ⊢
                  rcases hl : obj_loop f maxd d st6 with ⟨rest, s1⟩ | ⟨e1, s1⟩
                  · rw [hl] at h
                    try dsimp only at h
                    rw [obj_loop_mono f maxd d st6 rest s1 hl]
                    exact h
                  · rw [hl] at h
                    try dsimp only at h
                    exact PRes.noConfusion h
          · rw [hv] at h
            try dsimp only at h
            exact PRes.noConfusion h
      · rw [hk] at h
        try dsimp only at h
        exact PRes.noConfusion h
    · rw [if_pos h34] at h
      exact PRes.noConfusion h
termination_by structural f maxd d st es st' h => f
end

/-- **C5**: the depth limit.  With `max_depth = D > 0`, an input whose
parsed tree is nested exactly `D` containers deep (its container depth
`cdepth` is `D`, so in particular any input accepted with `cdepth ≤ D`)
parses to exactly the tree of the unlimited run, while an input nested
deeper — in particular one nested `D + 1` deep — fails with error code
`Depth`; and `max_depth = 0` is unlimited: every input accepted under
any limit is accepted identically with `max_depth = 0`. -/
theorem c5_depth_limit :
    (∀ (input : List Nat) (flags D : Nat) (v : JVal) (st : St), 0 < D →
      json_parse_opts input flags 0 = .ok v st →
      (cdepth v ≤ D → json_parse_opts input flags D = .ok v st) ∧
      (D < cdepth v →
        ∃ e s, json_parse_opts input flags D = .err e s ∧ e.code = .depthErr)) ∧
    (∀ (input : List Nat) (flags D : Nat) (v : JVal) (st : St),
      json_parse_opts input flags D = .ok v st → json_parse_opts input flags 0 = .ok v st) := by
  constructor
  · intro input flags D v st hD h0
    rw [json_parse_opts] at h0 ⊢
    by_cases hlen : input.length = 0
    · rw [if_pos hlen] at h0
      exact PRes.noConfusion h0
    · rw [if_neg hlen] at h0 ⊢
      rw [parse_json] at h0 ⊢
      try dsimp only at h0 ⊢
      split at h0
      · exact PRes.noConfusion h0
      · rename_i root st1 heq
        have hsim := parse_value_depth (fuelFor input) D 0 _ root st1 hD (by omega) heq
        try dsimp only at h0
        by_cases htr : (skip_ws st1).pos < (skip_ws st1).input.length
        · rw [if_pos htr] at h0
          exact PRes.noConfusion h0
        · rw [if_neg htr] at h0
          rw [PRes.ok.injEq] at h0
          obtain ⟨hv, hs⟩ := h0
          subst hv
          subst hs
          constructor
          · intro hle
            rw [hsim.1 (by omega)]
            try dsimp only
            rw [if_neg htr]
          · intro hlt
            obtain ⟨e, s, he, hcode⟩ := hsim.2 (by omega)
            exact ⟨e, s, by rw [he], hcode⟩
  · intro input flags D v st h
    rw [json_parse_opts] at h ⊢
    by_cases hlen : input.length = 0
    · rw [if_pos hlen] at h ⊢
      exact h
    · rw [if_neg hlen] at h ⊢
      rw [parse_json] at h ⊢
      try dsimp only at h ⊢
      split at h
      · exact PRes.noConfusion h
      · rename_i root st1 heq
        rw [parse_value_mono (fuelFor input) D 0 _ root st1 heq]
        exact h

/-- Witness for C5 at the input `[[1]]` (container depth 2): with
`max_depth = 2` it parses, with `max_depth = 1` it fails with `Depth`. -/
theorem c5_depth_limit_witness :
    json_parse_opts [91, 91, 49, 93, 93] 0 2 =
      .ok (.varr (.cons (.varr (.cons (.vint 1) .nil)) .nil))
        (mkSt [91, 91, 49, 93, 93] 5 1 6 0) ∧
    (∃ e s, json_parse_opts [91, 91, 49, 93, 93] 0 1 = .err e s ∧ e.code = .depthErr) := by
  have h0 : json_parse_opts [91, 91, 49, 93, 93] 0 0 =
      .ok (.varr (.cons (.varr (.cons (.vint 1) .nil)) .nil))
        (mkSt [91, 91, 49, 93, 93] 5 1 6 0) := by
    decide
  constructor
  · exact (c5_depth_limit.1 [91, 91, 49, 93, 93] 0 2 _ _ (by decide) h0).1 (by decide)
  · exact (c5_depth_limit.1 [91, 91, 49, 93, 93] 0 1 _ _ (by decide) h0).2 (by decide)

end JsonAsm
